import Mathlib

/-!
# PDB viewer: projection and rasterization pipeline

A shallow embedding of `src/pdb-visualize.c`.

Modelling conventions

* C `float` values are exact rationals (`Rat`); rounding of the binary
  floating-point format is not modelled.  A computation whose C counterpart
  would produce an IEEE infinity or NaN (a division by a zero extent) leaves
  this model and is reported as `FitError.nonFinite`.
* C `int` values are unbounded integers (`Int`); signed overflow is undefined
  behaviour in C and lies outside the model.
* The cast `(int)f` truncates toward zero (`castInt`).
* A read of `atoms[i]` past the end of the sequence is reported as
  `FitError.indexOutOfRange`.
* Calls to the SDL renderer are recorded, in order, as a list of `DrawCall`s.
* The `while` loop of `SDL_RenderDrawCircle` is run with an explicit iteration
  budget; exhausting the budget yields `none`.  That the budget chosen by
  `SDL_RenderDrawCircle` always suffices is a theorem (`circleLoop_total`).
* A file is the list of its characters.  `fgets` and `sscanf` follow the C
  standard.  The loop of `parsePDB` is run with a budget of one iteration per
  character of the file, which always suffices (`parseLoop_lines`).
* The array built by `parsePDB` is a list of `Slot`s: an element never written
  is `Slot.indeterminate`, and the uninitialised local `atom` of the loop body
  is supplied by the parameter `uninit`.  A coordinate that `%f` reads as an
  infinity, a NaN or a hexadecimal constant is outside the exact numbers and
  makes the element `Slot.nonExact`.
-/

namespace PDBViewer

/-! ## Data model -/

/-- The `Atom` struct (lines 7-14).  `name` is the NUL-terminated content of
`char name[5]`. -/
structure Atom where
  name : String
  type : Char
  radius : Rat
  x : Rat
  y : Rat
  z : Rat
deriving DecidableEq

/-- A pixel position handed to `SDL_RenderDrawPoint`. -/
abbrev Point := Int × Int

/-- An RGBA colour as passed to `SDL_SetRenderDrawColor`. -/
abbrev Color := Nat × Nat × Nat × Nat

/-- One recorded call on the SDL renderer. -/
inductive DrawCall where
  | setColor (c : Color)
  | clear
  | point (p : Point)
  | present
deriving DecidableEq

/-- The ways `calculateScaleAndOffset` can leave the exact-arithmetic model. -/
inductive FitError where
  | indexOutOfRange
  | nonFinite
deriving DecidableEq

deriving instance DecidableEq for Except

/-- The C cast `(int)f` on a finite value: truncation toward zero. -/
def castInt (q : Rat) : Int := Int.tdiv q.num q.den

/-- C `fmin` on finite values. -/
def fmin (a b : Rat) : Rat := if a ≤ b then a else b

/-- C `fmax` on finite values. -/
def fmax (a b : Rat) : Rat := if a ≤ b then b else a

/-! ## `setVDWRadius` (lines 18-44) -/

/-- The chain of `strcmp` tests of `setVDWRadius`; the atom is returned with
its `radius` field overwritten. -/
def setVDWRadius (atom : Atom) : Atom :=
  if atom.name = "H" then { atom with radius := 12 / 10 }
  else if atom.name = "C" then { atom with radius := 17 / 10 }
  else if atom.name = "N" then { atom with radius := 155 / 100 }
  else if atom.name = "O" then { atom with radius := 152 / 100 }
  else if atom.name = "F" then { atom with radius := 147 / 100 }
  else if atom.name = "P" then { atom with radius := 18 / 10 }
  else if atom.name = "S" then { atom with radius := 18 / 10 }
  else if atom.name = "Cl" then { atom with radius := 175 / 100 }
  else if atom.name = "Br" then { atom with radius := 185 / 100 }
  else if atom.name = "I" then { atom with radius := 198 / 100 }
  else { atom with radius := 15 / 10 }

/-! ## `SDL_RenderDrawCircle` (lines 84-108) -/

/-- The eight `SDL_RenderDrawPoint` calls of one loop iteration (lines 92-99),
in source order. -/
def octantPoints (x y x_offset y_offset : Int) : List Point :=
  [ (x + x_offset, y + y_offset),
    (x + y_offset, y + x_offset),
    (x - y_offset, y + x_offset),
    (x - x_offset, y + y_offset),
    (x - x_offset, y - y_offset),
    (x - y_offset, y - x_offset),
    (x + y_offset, y - x_offset),
    (x + x_offset, y - y_offset) ]

/-- The `while (x_offset >= y_offset)` loop (lines 91-107) with an iteration
budget.  The result lists the points plotted by each executed iteration;
`none` means the budget ran out while the loop condition still held. -/
def circleLoop : Nat → Int → Int → Int → Int → Int → Option (List (List Point))
  | 0, _, _, x_offset, y_offset, _ =>
    if x_offset ≥ y_offset then none else some []
  | fuel + 1, x, y, x_offset, y_offset, err =>
    if x_offset ≥ y_offset then
      let y_offset1 := y_offset + 1
      let err1 := err + (1 + 2 * y_offset1)
      let rest :=
        if 2 * (err1 - x_offset) + 1 > 0 then
          circleLoop fuel x y (x_offset - 1) y_offset1 (err1 + (1 - 2 * (x_offset - 1)))
        else
          circleLoop fuel x y x_offset y_offset1 err1
      rest.map (fun t => octantPoints x y x_offset y_offset :: t)
    else some []

/-- The iterations of `SDL_RenderDrawCircle`: `x_offset = radius - 1`,
`y_offset = 0`, `err = 0`, budget `radius` iterations. -/
def circleSteps (x y radius : Int) : Option (List (List Point)) :=
  circleLoop radius.toNat x y (radius - 1) 0 0

/-- The points plotted by `SDL_RenderDrawCircle(renderer, x, y, radius)`, in
call order. -/
def SDL_RenderDrawCircle (x y radius : Int) : Option (List Point) :=
  (circleSteps x y radius).map List.flatten

/-! ## `drawAtom` (lines 111-136) -/

/-- The `switch (atom.type)` of `drawAtom` (lines 118-130). -/
def drawAtomColor (type : Char) : Color :=
  match type with
  | 'H' => (255, 255, 255, 255)
  | 'C' => (200, 200, 200, 255)
  | 'N' => (0, 0, 255, 255)
  | 'O' => (255, 0, 0, 255)
  | 'F' => (0, 255, 0, 255)
  | 'P' => (255, 165, 0, 255)
  | 'S' => (255, 255, 0, 255)
  | _ => (255, 255, 255, 255)

/-- The screen position computed by `drawAtom` (lines 113-114). -/
def screenPos (atom : Atom) (scale : Rat) (offsetX offsetY : Int) : Point :=
  (castInt (atom.x * scale) + offsetX, castInt (atom.y * scale) + offsetY)

/-- The loop `for (r = ...; r > 0; r--) SDL_RenderDrawCircle(renderer, x, y, r)`
(lines 133-135), started at `r`. -/
def drawAtomOutlines (x y : Int) : Nat → Option (List Point)
  | 0 => some []
  | r + 1 =>
    match SDL_RenderDrawCircle x y (r + 1), drawAtomOutlines x y r with
    | some pts, some rest => some (pts ++ rest)
    | _, _ => none

/-- The renderer calls made by `drawAtom`.  The local `z` (line 115) is
computed and never used. -/
def drawAtom (atom : Atom) (scale : Rat) (offsetX offsetY offsetZ : Int) :
    Option (List DrawCall) :=
  let p := screenPos atom scale offsetX offsetY
  let _z := castInt (atom.z * scale) + offsetZ
  let r := castInt (atom.radius * scale)
  (drawAtomOutlines p.1 p.2 r.toNat).map
    (fun pts => DrawCall.setColor (drawAtomColor atom.type) :: pts.map DrawCall.point)

/-! ## `calculateScaleAndOffset` (lines 138-167) -/

/-- The six running extrema of `calculateScaleAndOffset`. -/
structure Bounds where
  minX : Rat
  maxX : Rat
  minY : Rat
  maxY : Rat
  minZ : Rat
  maxZ : Rat
deriving DecidableEq

/-- The body of the min/max loop (lines 144-149). -/
def boundsStep (b : Bounds) (a : Atom) : Bounds :=
  { minX := fmin b.minX a.x, maxX := fmax b.maxX a.x,
    minY := fmin b.minY a.y, maxY := fmax b.maxY a.y,
    minZ := fmin b.minZ a.z, maxZ := fmax b.maxZ a.z }

/-- The result `(scale, offsetX, offsetY, offsetZ)` written through the four
output pointers. -/
abbrev Fit := Rat × Int × Int × Int

/-- The function `calculateScaleAndOffset`; `numAtoms` is the length of
`atoms`.  `atoms[0]` is read unconditionally (lines 140-142). -/
def calculateScaleAndOffset (atoms : List Atom)
    (screenWidth screenHeight screenDepth : Int) : Except FitError Fit :=
  match atoms with
  | [] => .error .indexOutOfRange
  | a0 :: rest =>
    let b := rest.foldl boundsStep
      { minX := a0.x, maxX := a0.x, minY := a0.y, maxY := a0.y, minZ := a0.z, maxZ := a0.z }
    let sizeX := b.maxX - b.minX
    let sizeY := b.maxY - b.minY
    let sizeZ := b.maxZ - b.minZ
    if sizeX = 0 ∨ sizeY = 0 ∨ sizeZ = 0 then .error .nonFinite
    else
      let scaleX := (screenWidth : Rat) / sizeX
      let scaleY := (screenHeight : Rat) / sizeY
      let scaleZ := (screenDepth : Rat) / sizeZ
      let scale := fmin scaleX (fmin scaleY scaleZ)
      .ok (scale,
           castInt (((screenWidth : Rat) - sizeX * scale) / 2),
           castInt (((screenHeight : Rat) - sizeY * scale) / 2),
           castInt (((screenDepth : Rat) - sizeZ * scale) / 2))

/-! ## `parsePDB` (lines 47-82)

A file is the list of its characters.  `fgets` and `sscanf` follow the C
standard; a line handed to `strncmp` and `sscanf` is the C string held by the
buffer, which ends at the first NUL character. -/

/-- C `isspace` in the "C" locale. -/
def isSpace (c : Char) : Bool :=
  c = ' ' || c = '\t' || c = '\n' || c = '\x0b' || c = '\x0c' || c = '\r'

/-- A white-space directive of a `scanf` format, and the white space skipped
ahead of `%d`, `%s` and `%f`. -/
def skipSpace (s : List Char) : List Char := s.dropWhile isSpace

/-- An optional sign ahead of a number. -/
def dropSign : List Char → List Char
  | [] => []
  | c :: t => if c = '+' ∨ c = '-' then t else c :: t

/-- Ordinary characters of a `scanf` format: each must be the next input
character.  The result is the remaining input. -/
def matchLiteral : List Char → List Char → Option (List Char)
  | [], s => some s
  | _ :: _, [] => none
  | c :: lit, d :: s => if c = d then matchLiteral lit s else none

/-- The directive `%*d`: white space, an optional sign, at least one decimal
digit.  The result is the remaining input; `none` is a matching failure. -/
def scanInt (s : List Char) : Option (List Char) :=
  let s1 := dropSign (skipSpace s)
  if (s1.takeWhile Char.isDigit).isEmpty then none else some (s1.dropWhile Char.isDigit)

/-- The directives `%4s` (`width = some 4`) and `%*s` (`width = none`): white
space, then the longest run of non-white-space characters within the field
width.  The result is the word and the remaining input. -/
def scanWord (width : Option Nat) (s : List Char) : Option (List Char × List Char) :=
  let s1 := skipSpace s
  let run := s1.takeWhile (fun c => !isSpace c)
  let word := match width with
    | some n => run.take n
    | none => run
  if word.isEmpty then none else some (word, s1.drop word.length)

/-- The number written by a string of decimal digits. -/
def digitsValue (ds : List Char) : Nat :=
  ds.foldl (fun n c => 10 * n + (c.toNat - 48)) 0

/-- The outcome of a `%f` directive. -/
inductive FloatScan where
  | value (q : Rat) (rest : List Char)
  | failure
  | nonExact
deriving DecidableEq

/-- Input on which `%f` reads an infinity, a NaN or a hexadecimal constant:
the text after the sign starts with `inf`, `nan` (in any case) or `0x`, `0X`. -/
def isSpecialFloat : List Char → Bool
  | c1 :: c2 :: rest =>
    (c1 = '0' && (c2 = 'x' || c2 = 'X')) ||
    (match rest with
     | c3 :: _ =>
       ((c1 = 'i' || c1 = 'I') && (c2 = 'n' || c2 = 'N') && (c3 = 'f' || c3 = 'F')) ||
       ((c1 = 'n' || c1 = 'N') && (c2 = 'a' || c2 = 'A') && (c3 = 'n' || c3 = 'N'))
     | [] => false)
  | _ => false

/-- The optional exponent of a `%f` item whose mantissa `m` has been read:
`e` or `E`, an optional sign, digits.  An exponent letter that no digit
follows is a matching failure. -/
def scanExponent (m : Rat) : List Char → FloatScan
  | [] => .value m []
  | c :: s5 =>
    if c = 'e' ∨ c = 'E' then
      if ((dropSign s5).takeWhile Char.isDigit).isEmpty then .failure
      else if s5.head? = some '-' then
        .value (m / 10 ^ digitsValue ((dropSign s5).takeWhile Char.isDigit))
          ((dropSign s5).dropWhile Char.isDigit)
      else
        .value (m * 10 ^ digitsValue ((dropSign s5).takeWhile Char.isDigit))
          ((dropSign s5).dropWhile Char.isDigit)
    else .value m (c :: s5)

/-- The directive `%f`: white space, an optional sign, decimal digits with an
optional point, an optional exponent.  Without any digit the directive fails.
Infinities, NaNs and hexadecimal constants are reported as `nonExact`. -/
def scanFloat (s : List Char) : FloatScan :=
  let s1 := skipSpace s
  let s2 := dropSign s1
  if isSpecialFloat s2 then .nonExact
  else
    let whole := s2.takeWhile Char.isDigit
    let s3 := s2.dropWhile Char.isDigit
    let frac := if s3.head? = some '.' then s3.tail.takeWhile Char.isDigit else []
    let s4 := if s3.head? = some '.' then s3.tail.dropWhile Char.isDigit else s3
    if whole.isEmpty && frac.isEmpty then .failure
    else
      let mant : Rat := (digitsValue (whole ++ frac) : Rat) / 10 ^ frac.length
      scanExponent (if s1.head? = some '-' then -mant else mant) s4

/-- One element of the array built by `parsePDB`: never written, a copy of
the local `atom`, or a copy of an `atom` one of whose coordinates is not an
exact number. -/
inductive Slot where
  | indeterminate
  | atom (a : Atom)
  | nonExact
deriving DecidableEq

/-- The tail ` %f %f %f` of the format, storing into `atom.x`, `atom.y`,
`atom.z`; scanning stops at the first failing directive. -/
def scanCoords (s : List Char) (atom : Atom) : Slot :=
  match scanFloat (skipSpace s) with
  | .failure => .atom atom
  | .nonExact => .nonExact
  | .value x s1 =>
    match scanFloat (skipSpace s1) with
    | .failure => .atom { atom with x := x }
    | .nonExact => .nonExact
    | .value y s2 =>
      match scanFloat (skipSpace s2) with
      | .failure => .atom { atom with x := x, y := y }
      | .nonExact => .nonExact
      | .value z _ => .atom { atom with x := x, y := y, z := z }

/-- The call `sscanf(line, "ATOM  %*d %4s %c %*s %*s %f %f %f", atom.name,
&atom.type, &atom.x, &atom.y, &atom.z)` (line 70) on the local `atom`, whose
fields keep their previous content where no directive stores. -/
def sscanfAtom (s : List Char) (atom : Atom) : Slot :=
  match matchLiteral ['A', 'T', 'O', 'M'] s with
  | none => .atom atom
  | some s1 =>
    match scanInt (skipSpace s1) with
    | none => .atom atom
    | some s2 =>
      match scanWord (some 4) (skipSpace s2) with
      | none => .atom atom
      | some (name, s3) =>
        match skipSpace s3 with
        | [] => .atom { atom with name := String.mk name }
        | c :: s4 =>
          match scanWord none (skipSpace s4) with
          | none => .atom { atom with name := String.mk name, type := c }
          | some (_, s5) =>
            match scanWord none (skipSpace s5) with
            | none => .atom { atom with name := String.mk name, type := c }
            | some (_, s6) => scanCoords s6 { atom with name := String.mk name, type := c }

/-- The C string held by a buffer: its content up to the first NUL. -/
def cstr (buf : List Char) : List Char := buf.takeWhile (fun c => c ≠ Char.ofNat 0)

/-- The characters `fgets` stores when at most `room` characters fit: input
up to and including the first newline.  The result is the stored characters
and the remaining input. -/
def fgetsLine : Nat → List Char → List Char × List Char
  | 0, s => ([], s)
  | _ + 1, [] => ([], [])
  | room + 1, c :: t =>
    if c = '\n' then ([c], t)
    else (c :: (fgetsLine room t).1, (fgetsLine room t).2)

/-- The call `fgets(line, size, file)`: `none` at end of file. -/
def fgets (size : Nat) (input : List Char) : Option (List Char × List Char) :=
  if input.isEmpty then none else some (fgetsLine (size - 1) input)

/-- The statements `atoms = realloc(atoms, sizeof(Atom) * (i + 1)); atoms[i] = atom`
(lines 73-74): the array is cut or extended to `i + 1` elements, new
elements being indeterminate, and element `i` is written. -/
def storeAt (atoms : List Slot) (i : Nat) (s : Slot) : List Slot :=
  (atoms.take (i + 1) ++ List.replicate (i + 1 - atoms.length) Slot.indeterminate).set i s

/-- The ways `parsePDB` can end without a result in the model. -/
inductive ParseError where
  | cannotOpen
  | negativeCount
  | outOfFuel
deriving DecidableEq

/-- The loop `while (fgets(line, sizeof(line), file) != NULL)` (lines 65-77)
with an iteration budget.  `uninit k` is the indeterminate content of the
local `atom` when the `k`-th atom record is scanned; `records` counts the atom
records met so far.  A negative `*numAtoms` makes the `realloc` and the store
undefined. -/
def parseLoop (uninit : Nat → Atom) :
    Nat → List Char → Nat → List Slot → Int → Except ParseError (List Slot × Int)
  | 0, input, _, atoms, numAtoms =>
    if input.isEmpty then .ok (atoms, numAtoms) else .error .outOfFuel
  | fuel + 1, input, records, atoms, numAtoms =>
    match fgets 80 input with
    | none => .ok (atoms, numAtoms)
    | some (line, rest) =>
      if (cstr line).take 4 = ['A', 'T', 'O', 'M'] then
        if numAtoms < 0 then .error .negativeCount
        else
          parseLoop uninit fuel rest (records + 1)
            (storeAt atoms numAtoms.toNat (sscanfAtom (cstr line) (uninit records)))
            (numAtoms + 1)
      else parseLoop uninit fuel rest records atoms numAtoms

/-- The function `parsePDB`.  `file` is the content of the file, `none` when
it cannot be opened; `numAtoms` is the value of `*numAtoms` on entry.  The
result is the returned array and the value of `*numAtoms` on return. -/
def parsePDB (file : Option (List Char)) (numAtoms : Int) (uninit : Nat → Atom) :
    Except ParseError (List Slot × Int) :=
  match file with
  | none => .error .cannotOpen
  | some input => parseLoop uninit input.length input 0 [Slot.indeterminate] numAtoms

/-! ## `main` (lines 170-234) -/

/-- The locals `screenWidth`, `screenHeight`, `screenDepth` of `main`
(lines 174-176). -/
def mainViewport : Int × Int × Int := (1024, 1024, 50)

/-- The loop `for (i = 0; i < numAtoms; i++) setVDWRadius(&atoms[i])`
(lines 180-182) over a sequence of `numAtoms` atoms. -/
def annotateRadii (atoms : List Atom) : List Atom := atoms.map setVDWRadius

/-- The locals `scale`, `offsetX`, `offsetY`, `offsetZ` of `main`
(lines 195-198); they are never assigned again. -/
def mainDrawParams : Fit := (10, 500, 200, 0)

/-- The loop `for (i = 0; i < numAtoms; i++) drawAtom(renderer, atoms[i], ...)`
(lines 218-220). -/
def drawAtoms (scale : Rat) (offsetX offsetY offsetZ : Int) :
    List Atom → Option (List DrawCall)
  | [] => some []
  | a :: rest =>
    match drawAtom a scale offsetX offsetY offsetZ, drawAtoms scale offsetX offsetY offsetZ rest with
    | some calls, some more => some (calls ++ more)
    | _, _ => none

/-- One pass of the body of `main`'s render loop (lines 213-223): clear to
black, draw every atom with `main`'s `scale` and offsets, present. -/
def mainFrame (atoms : List Atom) : Option (List DrawCall) :=
  (drawAtoms mainDrawParams.1 mainDrawParams.2.1 mainDrawParams.2.2.1 mainDrawParams.2.2.2
      atoms).map
    (fun calls => DrawCall.setColor (0, 0, 0, 255) :: DrawCall.clear :: (calls ++ [DrawCall.present]))

/-! ## Specification-side predicates -/

/-- The value `m` is the least value of coordinate `f` over `atoms`. -/
def IsAxisMin (f : Atom → Rat) (atoms : List Atom) (m : Rat) : Prop :=
  (∃ a ∈ atoms, f a = m) ∧ ∀ a ∈ atoms, m ≤ f a

/-- The value `m` is the greatest value of coordinate `f` over `atoms`. -/
def IsAxisMax (f : Atom → Rat) (atoms : List Atom) (m : Rat) : Prop :=
  (∃ a ∈ atoms, f a = m) ∧ ∀ a ∈ atoms, f a ≤ m

/-- The content of a text file: every line of `lines` followed by a newline,
then `last`, the characters after the final newline (empty when the file ends
with a newline). -/
def fileOfLines (lines : List (List Char)) (last : List Char) : List Char :=
  (lines.map (fun l => l ++ ['\n'])).flatten ++ last

/-- The lines of `fileOfLines lines last`, without their newlines. -/
def fileLines (lines : List (List Char)) (last : List Char) : List (List Char) :=
  lines ++ (if last.isEmpty then [] else [last])

/-- The lines of `fileOfLines lines last` as they stand in the file, each
with its newline when it has one. -/
def fileChunks (lines : List (List Char)) (last : List Char) : List (List Char) :=
  lines.map (fun l => l ++ ['\n']) ++ (if last.isEmpty then [] else [last])

/-- The first four characters are `ATOM`. -/
def startsWithAtom (l : List Char) : Bool := decide (l.take 4 = ['A', 'T', 'O', 'M'])

/-- The array elements scanned from a list of atom-record lines, the first of
them being record number `k`. -/
def scanRecords (uninit : Nat → Atom) : Nat → List (List Char) → List Slot
  | _, [] => []
  | k, line :: rest => sscanfAtom (cstr line) (uninit k) :: scanRecords uninit (k + 1) rest

/-- The array after the records `slots` have been stored from a state with
array `atoms` and counter `n`: the first store cuts or extends the array to
`n` elements ahead of the new one, every later store appends. -/
def storedArray (atoms : List Slot) (n : Nat) (slots : List Slot) : List Slot :=
  if slots.isEmpty then atoms
  else atoms.take n ++ List.replicate (n - atoms.length) Slot.indeterminate ++ slots

/-- A character a token is made of: neither white space nor NUL. -/
def isVisible (c : Char) : Bool := !isSpace c && c != Char.ofNat 0

/-- A separator between the tokens of a line: non-empty white space without
a newline. -/
def isSeparator (w : List Char) : Bool :=
  !w.isEmpty && w.all (fun c => isSpace c && c != '\n')

/-- A decimal number as written in a line: an optional minus sign, digits,
and an optional fraction (a point followed by the digits `frac`, absent when
`frac` is empty). -/
structure DecimalText where
  neg : Bool
  whole : List Char
  frac : List Char

/-- The characters of a decimal number. -/
def DecimalText.text (d : DecimalText) : List Char :=
  (if d.neg then ['-'] else []) ++ (d.whole ++ (if d.frac.isEmpty then [] else '.' :: d.frac))

/-- The number a decimal text denotes. -/
def DecimalText.value (d : DecimalText) : Rat :=
  (if d.neg then -1 else 1) *
    ((digitsValue d.whole : Rat) + (digitsValue d.frac : Rat) / 10 ^ d.frac.length)

/-- At least one digit ahead of the optional fraction, digits only. -/
def DecimalText.wellFormed (d : DecimalText) : Bool :=
  !d.whole.isEmpty && d.whole.all Char.isDigit && d.frac.all Char.isDigit

/-- A line made of the token `ATOM`, an integer serial number, an atom name,
a type character, two further tokens and three decimal numbers, with the
separators between them. -/
structure AtomLine where
  sep1 : List Char
  serialNeg : Bool
  serial : List Char
  sep2 : List Char
  name : List Char
  sep3 : List Char
  type : Char
  sep4 : List Char
  tok1 : List Char
  sep5 : List Char
  tok2 : List Char
  sep6 : List Char
  x : DecimalText
  sep7 : List Char
  y : DecimalText
  sep8 : List Char
  z : DecimalText

/-- The characters of the line from the first coordinate on. -/
def AtomLine.coordsText (L : AtomLine) : List Char :=
  L.x.text ++ (L.sep7 ++ (L.y.text ++ (L.sep8 ++ L.z.text)))

/-- The characters of the line. -/
def AtomLine.text (L : AtomLine) : List Char :=
  ['A', 'T', 'O', 'M'] ++ (L.sep1 ++ ((if L.serialNeg then ['-'] else []) ++ (L.serial ++
    (L.sep2 ++ (L.name ++ (L.sep3 ++ (L.type :: (L.sep4 ++ (L.tok1 ++ (L.sep5 ++ (L.tok2 ++
      (L.sep6 ++ L.coordsText))))))))))))

/-- The format of the line: separators are non-empty white space, the serial
number is made of digits, the name has 1 to 4 visible characters, the type is
one visible character, the two further tokens are non-empty and visible, the
coordinates are decimal numbers. -/
def AtomLine.wellFormed (L : AtomLine) : Bool :=
  isSeparator L.sep1 && isSeparator L.sep2 && isSeparator L.sep3 && isSeparator L.sep4 &&
  isSeparator L.sep5 && isSeparator L.sep6 && isSeparator L.sep7 && isSeparator L.sep8 &&
  !L.serial.isEmpty && L.serial.all Char.isDigit &&
  !L.name.isEmpty && decide (L.name.length ≤ 4) && L.name.all isVisible &&
  isVisible L.type &&
  !L.tok1.isEmpty && L.tok1.all isVisible && !L.tok2.isEmpty && L.tok2.all isVisible &&
  L.x.wellFormed && L.y.wellFormed && L.z.wellFormed

/-- The atom the line describes, its radius taken from `atom`. -/
def AtomLine.atom (L : AtomLine) (atom : Atom) : Atom :=
  { name := String.mk L.name, type := L.type, radius := atom.radius,
    x := L.x.value, y := L.y.value, z := L.z.value }

/-- The input is empty or its first character satisfies `p`. -/
def HeadAll (p : Char → Bool) (s : List Char) : Prop :=
  ∀ c t, s = c :: t → p c = true

/-! ## Sample inputs -/

/-- A carbon at the origin, as `parsePDB` followed by `setVDWRadius` leaves it. -/
def carbonAtOrigin : Atom :=
  { name := "C", type := 'C', radius := 17 / 10, x := 0, y := 0, z := 0 }

/-- A carbon at the origin and an oxygen at (10, 10, 10). -/
def carbonOxygen : List Atom :=
  [ carbonAtOrigin,
    { name := "O", type := 'O', radius := 152 / 100, x := 10, y := 10, z := 10 } ]

/-- The same two atoms translated by (100, 100, 100). -/
def shiftedPair : List Atom :=
  [ { name := "C", type := 'C', radius := 17 / 10, x := 100, y := 100, z := 100 },
    { name := "O", type := 'O', radius := 152 / 100, x := 110, y := 110, z := 110 } ]

/-- The line `ATOM 1 C C A 1 0 0 0`. -/
def sampleLineC : AtomLine :=
  { sep1 := [' '], serialNeg := false, serial := ['1'], sep2 := [' '], name := ['C'],
    sep3 := [' '], type := 'C', sep4 := [' '], tok1 := ['A'], sep5 := [' '], tok2 := ['1'],
    sep6 := [' '], x := { neg := false, whole := ['0'], frac := [] },
    sep7 := [' '], y := { neg := false, whole := ['0'], frac := [] },
    sep8 := [' '], z := { neg := false, whole := ['0'], frac := [] } }

/-- The line `ATOM 2 O O A 1 10 0 0`. -/
def sampleLineO : AtomLine :=
  { sampleLineC with
    serial := ['2'], name := ['O'], type := 'O',
    x := { neg := false, whole := ['1', '0'], frac := [] } }

/-- The line `ATOM 1 C C A 1 0 0`, then 71 spaces, then `5`: its last
coordinate stands beyond the 79 characters an 80-byte buffer holds. -/
def sampleLongLine : AtomLine :=
  { sampleLineC with
    sep8 := List.replicate 71 ' ',
    z := { neg := false, whole := ['5'], frac := [] } }

/-- A line of 79 filler characters followed by the text of an atom record. -/
def sampleSplitLine : List Char := List.replicate 79 'X' ++ sampleLineC.text

/-! ## The rasterizer loop -/

/-- A budget of `x_offset - y_offset + 1` iterations is enough for the loop to
run to completion, and bounds the number of iterations executed. -/
theorem circleLoop_total (fuel : Nat) (x y : Int) :
    ∀ (x_offset y_offset err : Int), (x_offset - y_offset + 1).toNat ≤ fuel →
      ∃ steps, circleLoop fuel x y x_offset y_offset err = some steps ∧
        steps.length ≤ (x_offset - y_offset + 1).toNat := by
  induction fuel with
  | zero =>
    intro xo yo err h
    have hlt : ¬ xo ≥ yo := by omega
    exact ⟨[], by simp [circleLoop, hlt], by simp⟩
  | succ n ih =>
    intro xo yo err h
    by_cases hge : xo ≥ yo
    · simp only [circleLoop, hge, if_true]
      split
      · obtain ⟨t, ht, hlen⟩ := ih (xo - 1) (yo + 1) (err + (1 + 2 * (yo + 1)) + (1 - 2 * (xo - 1)))
          (by omega)
        refine ⟨octantPoints x y xo yo :: t, by simp [ht], ?_⟩
        simp only [List.length_cons]
        omega
      · obtain ⟨t, ht, hlen⟩ := ih xo (yo + 1) (err + (1 + 2 * (yo + 1))) (by omega)
        refine ⟨octantPoints x y xo yo :: t, by simp [ht], ?_⟩
        simp only [List.length_cons]
        omega
    · exact ⟨[], by simp [circleLoop, hge], by simp⟩

/-- Every executed iteration plots the eight points `octantPoints x y u v` of
some offset pair `(u, v)`. -/
theorem circleLoop_shape (fuel : Nat) (x y : Int) :
    ∀ (x_offset y_offset err : Int) (steps : List (List Point)),
      circleLoop fuel x y x_offset y_offset err = some steps →
      ∀ s ∈ steps, ∃ u v, s = octantPoints x y u v := by
  induction fuel with
  | zero =>
    intro xo yo err steps h s hs
    simp only [circleLoop] at h
    split at h
    · cases h
    · cases h
      cases hs
  | succ n ih =>
    intro xo yo err steps h s hs
    simp only [circleLoop] at h
    split at h
    · split at h
      · cases hrest : circleLoop n x y (xo - 1) (yo + 1)
            (err + (1 + 2 * (yo + 1)) + (1 - 2 * (xo - 1))) with
        | none => simp [hrest] at h
        | some t =>
          simp only [hrest, Option.map_some', Option.some.injEq] at h
          subst h
          rcases List.mem_cons.mp hs with rfl | hs
          · exact ⟨xo, yo, rfl⟩
          · exact ih _ _ _ t hrest s hs
      · cases hrest : circleLoop n x y xo (yo + 1) (err + (1 + 2 * (yo + 1))) with
        | none => simp [hrest] at h
        | some t =>
          simp only [hrest, Option.map_some', Option.some.injEq] at h
          subst h
          rcases List.mem_cons.mp hs with rfl | hs
          · exact ⟨xo, yo, rfl⟩
          · exact ih _ _ _ t hrest s hs
    · cases h
      cases hs

/-- The loop of `SDL_RenderDrawCircle` runs to completion for every radius, in
at most `radius` iterations. -/
theorem circleSteps_total (x y radius : Int) :
    ∃ steps, circleSteps x y radius = some steps ∧ steps.length ≤ radius.toNat := by
  obtain ⟨steps, h, hlen⟩ := circleLoop_total radius.toNat x y (radius - 1) 0 0 (by omega)
  exact ⟨steps, h, by omega⟩

/-- The function `SDL_RenderDrawCircle` returns for every centre and radius. -/
theorem SDL_RenderDrawCircle_total (x y radius : Int) :
    ∃ pts, SDL_RenderDrawCircle x y radius = some pts := by
  obtain ⟨steps, h, _⟩ := circleSteps_total x y radius
  exact ⟨steps.flatten, by simp [SDL_RenderDrawCircle, h]⟩

/-- Membership in one iteration's points, in terms of offsets from the centre. -/
theorem mem_octantPoints (x y u v a b : Int) :
    (x + a, y + b) ∈ octantPoints x y u v ↔
      (a = u ∧ b = v) ∨ (a = v ∧ b = u) ∨ (a = -v ∧ b = u) ∨ (a = -u ∧ b = v) ∨
      (a = -u ∧ b = -v) ∨ (a = -v ∧ b = -u) ∨ (a = v ∧ b = -u) ∨ (a = u ∧ b = -v) := by
  have e1 : ∀ c s t : Int, c + s = c + t ↔ s = t := by intros; omega
  have e2 : ∀ c s t : Int, c + s = c - t ↔ s = -t := by intros; omega
  simp only [octantPoints, List.mem_cons, List.mem_singleton, Prod.mk.injEq, List.mem_nil_iff,
    or_false, e1, e2]

/-- Each iteration's eight points are closed under the eight symmetries. -/
theorem octantPoints_symm (x y u v a b : Int) (h : (x + a, y + b) ∈ octantPoints x y u v) :
    (x + a, y - b) ∈ octantPoints x y u v ∧ (x - a, y + b) ∈ octantPoints x y u v ∧
    (x - a, y - b) ∈ octantPoints x y u v ∧ (x + b, y + a) ∈ octantPoints x y u v ∧
    (x + b, y - a) ∈ octantPoints x y u v ∧ (x - b, y + a) ∈ octantPoints x y u v ∧
    (x - b, y - a) ∈ octantPoints x y u v := by
  rw [mem_octantPoints] at h
  simp only [sub_eq_add_neg, mem_octantPoints]
  rcases h with h | h | h | h | h | h | h | h <;>
    (obtain ⟨ha, hb⟩ := h; subst ha hb; simp)

/-- A point plotted by `SDL_RenderDrawCircle` belongs to one iteration, all of
whose points are plotted. -/
theorem mem_SDL_RenderDrawCircle (x y radius : Int) (pts : List Point) (p : Point)
    (h : SDL_RenderDrawCircle x y radius = some pts) (hp : p ∈ pts) :
    ∃ u v, p ∈ octantPoints x y u v ∧ octantPoints x y u v ⊆ pts := by
  unfold SDL_RenderDrawCircle at h
  cases hs : circleSteps x y radius with
  | none => simp [hs] at h
  | some steps =>
    simp only [hs, Option.map_some', Option.some.injEq] at h
    subst h
    obtain ⟨s, hs1, hs2⟩ := List.mem_flatten.mp hp
    obtain ⟨u, v, rfl⟩ := circleLoop_shape _ _ _ _ _ _ steps hs s hs1
    exact ⟨u, v, hs2, fun q hq => List.mem_flatten.mpr ⟨_, hs1, hq⟩⟩

/-- The outline loop of `drawAtom` returns for every start radius. -/
theorem drawAtomOutlines_total (x y : Int) (r : Nat) :
    ∃ pts, drawAtomOutlines x y r = some pts := by
  induction r with
  | zero => exact ⟨[], rfl⟩
  | succ n ih =>
    obtain ⟨rest, hrest⟩ := ih
    obtain ⟨pts, hpts⟩ := SDL_RenderDrawCircle_total x y (n + 1)
    refine ⟨pts ++ rest, ?_⟩
    simp only [drawAtomOutlines]
    have hpts1 : SDL_RenderDrawCircle x y ((n : Int) + 1) = some pts := hpts
    rw [hpts1, hrest]
/-! ## The fitter -/

/-- On a non-negative value the cast `(int)f` is the floor. -/
theorem castInt_of_nonneg (q : Rat) (h : 0 ≤ q) : castInt q = ⌊q⌋ := by
  unfold castInt
  rw [Rat.floor_def, Int.tdiv_eq_ediv (Rat.num_nonneg.mpr h) (Int.ofNat_nonneg _)]

/-- The cast of a non-negative value is non-negative and does not exceed it. -/
theorem castInt_bounds (q : Rat) (h : 0 ≤ q) : 0 ≤ castInt q ∧ ((castInt q : Int) : Rat) ≤ q := by
  rw [castInt_of_nonneg q h]
  exact ⟨Int.floor_nonneg.mpr h, Int.floor_le q⟩

/-- On exact values `fmin` is the minimum. -/
theorem fmin_eq_min (a b : Rat) : fmin a b = min a b := by
  unfold fmin
  split
  · rw [min_eq_left]; assumption
  · rw [min_eq_right]; exact le_of_lt (not_le.mp (by assumption))

/-- On exact values `fmax` is the maximum. -/
theorem fmax_eq_max (a b : Rat) : fmax a b = max a b := by
  unfold fmax
  split
  · rw [max_eq_right]; assumption
  · rw [max_eq_left]; exact le_of_lt (not_le.mp (by assumption))

/-- The min/max loop updates each of the six extrema independently. -/
theorem foldl_boundsStep (rest : List Atom) :
    ∀ b : Bounds,
      rest.foldl boundsStep b =
        { minX := rest.foldl (fun m a => min m a.x) b.minX,
          maxX := rest.foldl (fun m a => max m a.x) b.maxX,
          minY := rest.foldl (fun m a => min m a.y) b.minY,
          maxY := rest.foldl (fun m a => max m a.y) b.maxY,
          minZ := rest.foldl (fun m a => min m a.z) b.minZ,
          maxZ := rest.foldl (fun m a => max m a.z) b.maxZ } := by
  induction rest with
  | nil => intro b; rfl
  | cons a t ih =>
    intro b
    simp only [List.foldl_cons, ih, boundsStep, fmin_eq_min, fmax_eq_max]

/-- A running minimum is below its start value and every element met, and is
one of them. -/
theorem foldl_min_spec (f : Atom → Rat) (rest : List Atom) :
    ∀ m0 : Rat,
      rest.foldl (fun m a => min m (f a)) m0 ≤ m0 ∧
      (∀ a ∈ rest, rest.foldl (fun m a => min m (f a)) m0 ≤ f a) ∧
      (rest.foldl (fun m a => min m (f a)) m0 = m0 ∨
        ∃ a ∈ rest, f a = rest.foldl (fun m a => min m (f a)) m0) := by
  induction rest with
  | nil => intro m0; simp
  | cons a t ih =>
    intro m0
    obtain ⟨h1, h2, h3⟩ := ih (min m0 (f a))
    simp only [List.foldl_cons]
    refine ⟨le_trans h1 (min_le_left _ _), ?_, ?_⟩
    · intro c hc
      rcases List.mem_cons.mp hc with rfl | hc
      · exact le_trans h1 (min_le_right _ _)
      · exact h2 c hc
    · rcases h3 with h3 | ⟨c, hc, hfc⟩
      · rcases min_choice m0 (f a) with hm | hm
        · left; rw [h3, hm]
        · right; exact ⟨a, List.mem_cons_self _ _, by rw [h3, hm]⟩
      · right; exact ⟨c, List.mem_cons_of_mem _ hc, hfc⟩

/-- A running maximum is above its start value and every element met, and is
one of them. -/
theorem foldl_max_spec (f : Atom → Rat) (rest : List Atom) :
    ∀ m0 : Rat,
      m0 ≤ rest.foldl (fun m a => max m (f a)) m0 ∧
      (∀ a ∈ rest, f a ≤ rest.foldl (fun m a => max m (f a)) m0) ∧
      (rest.foldl (fun m a => max m (f a)) m0 = m0 ∨
        ∃ a ∈ rest, f a = rest.foldl (fun m a => max m (f a)) m0) := by
  induction rest with
  | nil => intro m0; simp
  | cons a t ih =>
    intro m0
    obtain ⟨h1, h2, h3⟩ := ih (max m0 (f a))
    simp only [List.foldl_cons]
    refine ⟨le_trans (le_max_left _ _) h1, ?_, ?_⟩
    · intro c hc
      rcases List.mem_cons.mp hc with rfl | hc
      · exact le_trans (le_max_right _ _) h1
      · exact h2 c hc
    · rcases h3 with h3 | ⟨c, hc, hfc⟩
      · rcases max_choice m0 (f a) with hm | hm
        · left; rw [h3, hm]
        · right; exact ⟨a, List.mem_cons_self _ _, by rw [h3, hm]⟩
      · right; exact ⟨c, List.mem_cons_of_mem _ hc, hfc⟩

/-- The running minimum over the tail, started at the head, is the axis minimum. -/
theorem isAxisMin_foldl (f : Atom → Rat) (a0 : Atom) (rest : List Atom) :
    IsAxisMin f (a0 :: rest) (rest.foldl (fun m a => min m (f a)) (f a0)) := by
  obtain ⟨h1, h2, h3⟩ := foldl_min_spec f rest (f a0)
  constructor
  · rcases h3 with h3 | ⟨c, hc, hfc⟩
    · exact ⟨a0, List.mem_cons_self _ _, h3.symm⟩
    · exact ⟨c, List.mem_cons_of_mem _ hc, hfc⟩
  · intro c hc
    rcases List.mem_cons.mp hc with rfl | hc
    · exact h1
    · exact h2 c hc

/-- The running maximum over the tail, started at the head, is the axis maximum. -/
theorem isAxisMax_foldl (f : Atom → Rat) (a0 : Atom) (rest : List Atom) :
    IsAxisMax f (a0 :: rest) (rest.foldl (fun m a => max m (f a)) (f a0)) := by
  obtain ⟨h1, h2, h3⟩ := foldl_max_spec f rest (f a0)
  constructor
  · rcases h3 with h3 | ⟨c, hc, hfc⟩
    · exact ⟨a0, List.mem_cons_self _ _, h3.symm⟩
    · exact ⟨c, List.mem_cons_of_mem _ hc, hfc⟩
  · intro c hc
    rcases List.mem_cons.mp hc with rfl | hc
    · exact h1
    · exact h2 c hc

/-- An axis minimum is unique. -/
theorem isAxisMin_unique {f : Atom → Rat} {atoms : List Atom} {m m' : Rat}
    (h : IsAxisMin f atoms m) (h' : IsAxisMin f atoms m') : m = m' := by
  obtain ⟨⟨a, ha, rfl⟩, hle⟩ := h
  obtain ⟨⟨a', ha', rfl⟩, hle'⟩ := h'
  exact le_antisymm (hle a' ha') (hle' a ha)

/-- An axis maximum is unique. -/
theorem isAxisMax_unique {f : Atom → Rat} {atoms : List Atom} {m m' : Rat}
    (h : IsAxisMax f atoms m) (h' : IsAxisMax f atoms m') : m = m' := by
  obtain ⟨⟨a, ha, rfl⟩, hle⟩ := h
  obtain ⟨⟨a', ha', rfl⟩, hle'⟩ := h'
  exact le_antisymm (hle' a ha) (hle a' ha')

/-- The value returned by the fitter on a sequence whose axis extrema are
known and whose three extents are non-zero. -/
theorem calculateScaleAndOffset_eq (atoms : List Atom) (W H D : Int)
    (loX hiX loY hiY loZ hiZ : Rat)
    (hloX : IsAxisMin Atom.x atoms loX) (hhiX : IsAxisMax Atom.x atoms hiX)
    (hloY : IsAxisMin Atom.y atoms loY) (hhiY : IsAxisMax Atom.y atoms hiY)
    (hloZ : IsAxisMin Atom.z atoms loZ) (hhiZ : IsAxisMax Atom.z atoms hiZ)
    (hX : 0 < hiX - loX) (hY : 0 < hiY - loY) (hZ : 0 < hiZ - loZ) :
    calculateScaleAndOffset atoms W H D =
      .ok (min ((W : Rat) / (hiX - loX)) (min ((H : Rat) / (hiY - loY)) ((D : Rat) / (hiZ - loZ))),
        castInt (((W : Rat) - (hiX - loX) *
          min ((W : Rat) / (hiX - loX)) (min ((H : Rat) / (hiY - loY)) ((D : Rat) / (hiZ - loZ)))) / 2),
        castInt (((H : Rat) - (hiY - loY) *
          min ((W : Rat) / (hiX - loX)) (min ((H : Rat) / (hiY - loY)) ((D : Rat) / (hiZ - loZ)))) / 2),
        castInt (((D : Rat) - (hiZ - loZ) *
          min ((W : Rat) / (hiX - loX)) (min ((H : Rat) / (hiY - loY)) ((D : Rat) / (hiZ - loZ)))) / 2)) := by
  cases atoms with
  | nil =>
    obtain ⟨⟨a, ha, _⟩, _⟩ := hloX
    cases ha
  | cons a0 rest =>
    have e1 := isAxisMin_unique (isAxisMin_foldl Atom.x a0 rest) hloX
    have e2 := isAxisMax_unique (isAxisMax_foldl Atom.x a0 rest) hhiX
    have e3 := isAxisMin_unique (isAxisMin_foldl Atom.y a0 rest) hloY
    have e4 := isAxisMax_unique (isAxisMax_foldl Atom.y a0 rest) hhiY
    have e5 := isAxisMin_unique (isAxisMin_foldl Atom.z a0 rest) hloZ
    have e6 := isAxisMax_unique (isAxisMax_foldl Atom.z a0 rest) hhiZ
    simp only [calculateScaleAndOffset, foldl_boundsStep, e1, e2, e3, e4, e5, e6, fmin_eq_min]
    rw [if_neg]
    rintro (h | h | h) <;> linarith
/-- One axis of the centering property: with a positive scale not above
`V / e`, every coordinate between `lo` and `lo + e` lands in `[0, V]` after
scaling and adding the truncated centering offset. -/
theorem axis_centered (V e s lo c : Rat) (he : 0 < e) (hs : 0 < s) (hsV : s ≤ V / e)
    (hlo : lo ≤ c) (hhi : c ≤ lo + e) :
    0 ≤ castInt ((V - e * s) / 2) ∧
    0 ≤ (c - lo) * s + (castInt ((V - e * s) / 2) : Int) ∧
    (c - lo) * s + (castInt ((V - e * s) / 2) : Int) ≤ V := by
  have hes : e * s ≤ V := by
    calc e * s ≤ e * (V / e) := mul_le_mul_of_nonneg_left hsV he.le
      _ = V := by field_simp
  have hq : 0 ≤ (V - e * s) / 2 := by linarith
  obtain ⟨h0, h1⟩ := castInt_bounds _ hq
  have hc0 : 0 ≤ (c - lo) * s := mul_nonneg (by linarith) hs.le
  have hc1 : (c - lo) * s ≤ e * s := mul_le_mul_of_nonneg_right (by linarith) hs.le
  have h0' : (0 : Rat) ≤ (castInt ((V - e * s) / 2) : Int) := by exact_mod_cast h0
  refine ⟨h0, by linarith, by linarith⟩

/-! ## Further facts about `drawAtom` and the rasterizer loop -/

/-- The function `drawAtom` returns for every input; its first call sets the colour chosen
by the `switch`, the remaining calls are the points of the stacked outlines. -/
theorem drawAtom_total (atom : Atom) (scale : Rat) (offsetX offsetY offsetZ : Int) :
    ∃ pts, drawAtomOutlines (screenPos atom scale offsetX offsetY).1
        (screenPos atom scale offsetX offsetY).2 (castInt (atom.radius * scale)).toNat = some pts ∧
      drawAtom atom scale offsetX offsetY offsetZ =
        some (DrawCall.setColor (drawAtomColor atom.type) :: pts.map DrawCall.point) := by
  obtain ⟨pts, h⟩ := drawAtomOutlines_total (screenPos atom scale offsetX offsetY).1
    (screenPos atom scale offsetX offsetY).2 (castInt (atom.radius * scale)).toNat
  exact ⟨pts, h, by simp [drawAtom, h]⟩

/-- When the loop condition holds, the first executed iteration plots the
points of the current offsets. -/
theorem circleLoop_head (fuel : Nat) (x y x_offset y_offset err : Int)
    (steps : List (List Point)) (hge : x_offset ≥ y_offset)
    (h : circleLoop (fuel + 1) x y x_offset y_offset err = some steps) :
    ∃ t, steps = octantPoints x y x_offset y_offset :: t := by
  simp only [circleLoop, hge, if_true, Option.map_eq_some'] at h
  obtain ⟨t, _, ht⟩ := h
  exact ⟨t, ht.symm⟩

/-- When the loop condition fails, no iteration is executed. -/
theorem circleLoop_done (fuel : Nat) (x y x_offset y_offset err : Int)
    (hlt : x_offset < y_offset) :
    circleLoop fuel x y x_offset y_offset err = some [] := by
  have hge : ¬ x_offset ≥ y_offset := by omega
  cases fuel <;> simp [circleLoop, hge]

/-- Every executed iteration makes exactly eight plot calls. -/
theorem circleLoop_step_length (fuel : Nat) (x y x_offset y_offset err : Int)
    (steps : List (List Point)) (h : circleLoop fuel x y x_offset y_offset err = some steps) :
    ∀ s ∈ steps, s.length = 8 := by
  intro s hs
  obtain ⟨u, v, rfl⟩ := circleLoop_shape fuel x y x_offset y_offset err steps h s hs
  rfl

/-- Lists of eight-element lists flatten to eight times as many elements. -/
theorem length_flatten_of_eight (steps : List (List Point)) (h : ∀ s ∈ steps, s.length = 8) :
    steps.flatten.length = 8 * steps.length := by
  induction steps with
  | nil => rfl
  | cons s t ih =>
    have hs := h s (List.mem_cons_self _ _)
    have ht := ih (fun q hq => h q (List.mem_cons_of_mem _ hq))
    simp only [List.flatten_cons, List.length_append, List.length_cons, hs, ht]
    omega

/-! ## Claims -/

/-- C1: `setVDWRadius` sets the radius from the exact, case-sensitive atom
name: "H" 1.2, "C" 1.7, "N" 1.55, "O" 1.52, "F" 1.47, "P" 1.8, "S" 1.8,
"Cl" 1.75, "Br" 1.85, "I" 1.98, and 1.5 for every name outside the table,
among them "CA", "c", "CL" and the empty string. -/
theorem setVDWRadius_table (atom : Atom) :
    (setVDWRadius { atom with name := "H" }).radius = 1.2 ∧
    (setVDWRadius { atom with name := "C" }).radius = 1.7 ∧
    (setVDWRadius { atom with name := "N" }).radius = 1.55 ∧
    (setVDWRadius { atom with name := "O" }).radius = 1.52 ∧
    (setVDWRadius { atom with name := "F" }).radius = 1.47 ∧
    (setVDWRadius { atom with name := "P" }).radius = 1.8 ∧
    (setVDWRadius { atom with name := "S" }).radius = 1.8 ∧
    (setVDWRadius { atom with name := "Cl" }).radius = 1.75 ∧
    (setVDWRadius { atom with name := "Br" }).radius = 1.85 ∧
    (setVDWRadius { atom with name := "I" }).radius = 1.98 ∧
    (atom.name ∉ ["H", "C", "N", "O", "F", "P", "S", "Cl", "Br", "I"] →
      (setVDWRadius atom).radius = 1.5) ∧
    (setVDWRadius { atom with name := "CA" }).radius = 1.5 ∧
    (setVDWRadius { atom with name := "c" }).radius = 1.5 ∧
    (setVDWRadius { atom with name := "CL" }).radius = 1.5 ∧
    (setVDWRadius { atom with name := "" }).radius = 1.5 := by
  refine ⟨?_, ?_, ?_, ?_, ?_, ?_, ?_, ?_, ?_, ?_, ?_, ?_, ?_, ?_, ?_⟩
  case refine_11 =>
    intro h
    simp only [List.mem_cons, List.mem_singleton, not_or, List.mem_nil_iff, or_false] at h
    obtain ⟨h1, h2, h3, h4, h5, h6, h7, h8, h9, h10⟩ := h
    simp only [setVDWRadius, h1, h2, h3, h4, h5, h6, h7, h8, h9, h10, if_false]
    norm_num
  all_goals (simp [setVDWRadius]; try norm_num)

/-- Witness for C1: the name "Zn" is outside the table and gets radius 1.5. -/
theorem setVDWRadius_table_witness :
    "Zn" ∉ ["H", "C", "N", "O", "F", "P", "S", "Cl", "Br", "I"] ∧
    (setVDWRadius { carbonAtOrigin with name := "Zn" }).radius = 1.5 :=
  ⟨by decide,
   (setVDWRadius_table { carbonAtOrigin with name := "Zn" }).2.2.2.2.2.2.2.2.2.2.1 (by decide)⟩

/-- C2: `drawAtom` returns for every input and its first renderer call sets
the colour chosen from the type character: 'H' white, 'C' light gray, 'N' blue,
'O' red, 'F' green, 'P' orange, 'S' yellow, and white for every other
character. -/
theorem drawAtom_color (atom : Atom) (scale : Rat) (offsetX offsetY offsetZ : Int) (c : Char) :
    (∃ rest, drawAtom atom scale offsetX offsetY offsetZ =
      some (DrawCall.setColor (drawAtomColor atom.type) :: rest)) ∧
    drawAtomColor 'H' = (255, 255, 255, 255) ∧
    drawAtomColor 'C' = (200, 200, 200, 255) ∧
    drawAtomColor 'N' = (0, 0, 255, 255) ∧
    drawAtomColor 'O' = (255, 0, 0, 255) ∧
    drawAtomColor 'F' = (0, 255, 0, 255) ∧
    drawAtomColor 'P' = (255, 165, 0, 255) ∧
    drawAtomColor 'S' = (255, 255, 0, 255) ∧
    (c ∉ ['H', 'C', 'N', 'O', 'F', 'P', 'S'] → drawAtomColor c = (255, 255, 255, 255)) := by
  refine ⟨?_, by decide, by decide, by decide, by decide, by decide, by decide, by decide, ?_⟩
  · obtain ⟨pts, _, h⟩ := drawAtom_total atom scale offsetX offsetY offsetZ
    exact ⟨_, h⟩
  · intro h
    simp only [List.mem_cons, List.mem_singleton, not_or, List.mem_nil_iff, or_false] at h
    unfold drawAtomColor
    split <;> simp_all

/-- Witness for C2: the unlisted character 'c' is drawn white. -/
theorem drawAtom_color_witness :
    'c' ∉ ['H', 'C', 'N', 'O', 'F', 'P', 'S'] ∧ drawAtomColor 'c' = (255, 255, 255, 255) :=
  ⟨by decide, (drawAtom_color carbonAtOrigin 10 500 200 0 'c').2.2.2.2.2.2.2.2 (by decide)⟩

/-- C3: on a sequence whose axis minima and maxima are `loX .. hiZ`, with all
three extents positive, `calculateScaleAndOffset` returns
`scale = min (W / extentX) (min (H / extentY) (D / extentZ))`. -/
theorem calculateScaleAndOffset_scale (atoms : List Atom) (W H D : Int)
    (loX hiX loY hiY loZ hiZ : Rat)
    (hloX : IsAxisMin Atom.x atoms loX) (hhiX : IsAxisMax Atom.x atoms hiX)
    (hloY : IsAxisMin Atom.y atoms loY) (hhiY : IsAxisMax Atom.y atoms hiY)
    (hloZ : IsAxisMin Atom.z atoms loZ) (hhiZ : IsAxisMax Atom.z atoms hiZ)
    (hX : 0 < hiX - loX) (hY : 0 < hiY - loY) (hZ : 0 < hiZ - loZ) :
    ∃ offsetX offsetY offsetZ,
      calculateScaleAndOffset atoms W H D =
        .ok (min ((W : Rat) / (hiX - loX))
              (min ((H : Rat) / (hiY - loY)) ((D : Rat) / (hiZ - loZ))),
            offsetX, offsetY, offsetZ) :=
  ⟨_, _, _, calculateScaleAndOffset_eq atoms W H D loX hiX loY hiY loZ hiZ
    hloX hhiX hloY hhiY hloZ hhiZ hX hY hZ⟩

/-- Witness for C3: the carbon/oxygen pair in the viewport (1024, 1024, 50). -/
theorem calculateScaleAndOffset_scale_witness :
    ∃ offsetX offsetY offsetZ,
      calculateScaleAndOffset carbonOxygen 1024 1024 50 =
        .ok (min (((1024 : Int) : Rat) / (10 - 0))
              (min (((1024 : Int) : Rat) / (10 - 0)) (((50 : Int) : Rat) / (10 - 0))),
            offsetX, offsetY, offsetZ) :=
  calculateScaleAndOffset_scale carbonOxygen 1024 1024 50 0 10 0 10 0 10
    (by unfold IsAxisMin; decide!) (by unfold IsAxisMax; decide!)
    (by unfold IsAxisMin; decide!) (by unfold IsAxisMax; decide!)
    (by unfold IsAxisMin; decide!) (by unfold IsAxisMax; decide!)
    (by norm_num) (by norm_num) (by norm_num)

/-- C4: centering property.  On a sequence with positive extents and a
viewport with positive dimensions, `calculateScaleAndOffset` returns a scale
and non-negative offsets such that, for every atom and every axis,
`0 ≤ (coordinate - axisMin) * scale + offset ≤ viewport dimension`. -/
theorem calculateScaleAndOffset_centered (atoms : List Atom) (W H D : Int)
    (loX hiX loY hiY loZ hiZ : Rat)
    (hloX : IsAxisMin Atom.x atoms loX) (hhiX : IsAxisMax Atom.x atoms hiX)
    (hloY : IsAxisMin Atom.y atoms loY) (hhiY : IsAxisMax Atom.y atoms hiY)
    (hloZ : IsAxisMin Atom.z atoms loZ) (hhiZ : IsAxisMax Atom.z atoms hiZ)
    (hX : 0 < hiX - loX) (hY : 0 < hiY - loY) (hZ : 0 < hiZ - loZ)
    (hW : 0 < W) (hH : 0 < H) (hD : 0 < D) :
    ∃ (scale : Rat) (offsetX offsetY offsetZ : Int),
      calculateScaleAndOffset atoms W H D = .ok (scale, offsetX, offsetY, offsetZ) ∧
      0 ≤ offsetX ∧ 0 ≤ offsetY ∧ 0 ≤ offsetZ ∧
      ∀ a ∈ atoms,
        (0 ≤ (a.x - loX) * scale + offsetX ∧ (a.x - loX) * scale + offsetX ≤ W) ∧
        (0 ≤ (a.y - loY) * scale + offsetY ∧ (a.y - loY) * scale + offsetY ≤ H) ∧
        (0 ≤ (a.z - loZ) * scale + offsetZ ∧ (a.z - loZ) * scale + offsetZ ≤ D) := by
  have hWq : (0 : Rat) < W := by exact_mod_cast hW
  have hHq : (0 : Rat) < H := by exact_mod_cast hH
  have hDq : (0 : Rat) < D := by exact_mod_cast hD
  have hs : 0 < min ((W : Rat) / (hiX - loX))
      (min ((H : Rat) / (hiY - loY)) ((D : Rat) / (hiZ - loZ))) :=
    lt_min (div_pos hWq hX) (lt_min (div_pos hHq hY) (div_pos hDq hZ))
  have hsX := min_le_left ((W : Rat) / (hiX - loX))
      (min ((H : Rat) / (hiY - loY)) ((D : Rat) / (hiZ - loZ)))
  have hsY := le_trans (min_le_right ((W : Rat) / (hiX - loX))
      (min ((H : Rat) / (hiY - loY)) ((D : Rat) / (hiZ - loZ)))) (min_le_left _ _)
  have hsZ := le_trans (min_le_right ((W : Rat) / (hiX - loX))
      (min ((H : Rat) / (hiY - loY)) ((D : Rat) / (hiZ - loZ)))) (min_le_right _ _)
  refine ⟨_, _, _, _, calculateScaleAndOffset_eq atoms W H D loX hiX loY hiY loZ hiZ
    hloX hhiX hloY hhiY hloZ hhiZ hX hY hZ, ?_, ?_, ?_, ?_⟩
  · exact (axis_centered W _ _ loX loX hX hs hsX le_rfl (by linarith)).1
  · exact (axis_centered H _ _ loY loY hY hs hsY le_rfl (by linarith)).1
  · exact (axis_centered D _ _ loZ loZ hZ hs hsZ le_rfl (by linarith)).1
  · intro a ha
    have hx := axis_centered W _ _ loX a.x hX hs hsX (hloX.2 a ha) (by linarith [hhiX.2 a ha])
    have hy := axis_centered H _ _ loY a.y hY hs hsY (hloY.2 a ha) (by linarith [hhiY.2 a ha])
    have hz := axis_centered D _ _ loZ a.z hZ hs hsZ (hloZ.2 a ha) (by linarith [hhiZ.2 a ha])
    exact ⟨hx.2, hy.2, hz.2⟩

/-- Witness for C4: the translated pair, whose minima are 100, in the
viewport (1024, 1024, 50). -/
theorem calculateScaleAndOffset_centered_witness :
    ∃ (scale : Rat) (offsetX offsetY offsetZ : Int),
      calculateScaleAndOffset shiftedPair 1024 1024 50 = .ok (scale, offsetX, offsetY, offsetZ) ∧
      0 ≤ offsetX ∧ 0 ≤ offsetY ∧ 0 ≤ offsetZ ∧
      ∀ a ∈ shiftedPair,
        (0 ≤ (a.x - 100) * scale + offsetX ∧ (a.x - 100) * scale + offsetX ≤ (1024 : Int)) ∧
        (0 ≤ (a.y - 100) * scale + offsetY ∧ (a.y - 100) * scale + offsetY ≤ (1024 : Int)) ∧
        (0 ≤ (a.z - 100) * scale + offsetZ ∧ (a.z - 100) * scale + offsetZ ≤ (50 : Int)) :=
  calculateScaleAndOffset_centered shiftedPair 1024 1024 50 100 110 100 110 100 110
    (by unfold IsAxisMin; decide!) (by unfold IsAxisMax; decide!)
    (by unfold IsAxisMin; decide!) (by unfold IsAxisMax; decide!)
    (by unfold IsAxisMin; decide!) (by unfold IsAxisMax; decide!)
    (by norm_num) (by norm_num) (by norm_num) (by decide) (by decide) (by decide)

/-- C5 (evaluation at the failing input): the translated pair has extents 10
on every axis and `main`'s viewport (1024, 1024, 50) is positive; the fitter
returns scale 5 and offsets (487, 487, 0); `drawAtom` then places the second
atom at (1037, 1037), to the right of and below the 1024 x 1024 viewport. -/
theorem fitted_draw_leaves_viewport :
    IsAxisMin Atom.x shiftedPair 100 ∧ IsAxisMax Atom.x shiftedPair 110 ∧
    IsAxisMin Atom.y shiftedPair 100 ∧ IsAxisMax Atom.y shiftedPair 110 ∧
    IsAxisMin Atom.z shiftedPair 100 ∧ IsAxisMax Atom.z shiftedPair 110 ∧
    calculateScaleAndOffset shiftedPair 1024 1024 50 = .ok (5, 487, 487, 0) ∧
    ∃ a ∈ shiftedPair, screenPos a 5 487 487 = (1037, 1037) ∧
      ¬ (screenPos a 5 487 487).1 ≤ 1024 ∧ ¬ (screenPos a 5 487 487).2 ≤ 1024 := by
  unfold IsAxisMin IsAxisMax
  decide!

/-- C6 (evaluation at the failing input): whatever the atom sequence, a frame
of `main` draws with the constants (10, 500, 200, 0); for the carbon/oxygen
pair the fitter applied to `main`'s viewport returns (5, 487, 487, 0), which is
a different set of parameters and yields different renderer calls. -/
theorem mainFrame_ignores_fit :
    (∀ atoms : List Atom, mainFrame atoms =
      (drawAtoms 10 500 200 0 atoms).map
        (fun calls =>
          DrawCall.setColor (0, 0, 0, 255) :: DrawCall.clear :: (calls ++ [DrawCall.present]))) ∧
    calculateScaleAndOffset carbonOxygen mainViewport.1 mainViewport.2.1 mainViewport.2.2 =
      .ok (5, 487, 487, 0) ∧
    calculateScaleAndOffset carbonOxygen mainViewport.1 mainViewport.2.1 mainViewport.2.2 ≠
      .ok mainDrawParams ∧
    drawAtoms 10 500 200 0 carbonOxygen ≠ drawAtoms 5 487 487 0 carbonOxygen :=
  ⟨fun _ => rfl, by decide!, by decide!, by decide!⟩

/-- C7: the points plotted by `SDL_RenderDrawCircle` are closed under the
eight reflections and rotations about the centre. -/
theorem SDL_RenderDrawCircle_symmetric (cx cy R : Int) (pts : List Point) (a b : Int)
    (h : SDL_RenderDrawCircle cx cy R = some pts) (hp : (cx + a, cy + b) ∈ pts) :
    (cx + a, cy - b) ∈ pts ∧ (cx - a, cy + b) ∈ pts ∧ (cx - a, cy - b) ∈ pts ∧
    (cx + b, cy + a) ∈ pts ∧ (cx + b, cy - a) ∈ pts ∧ (cx - b, cy + a) ∈ pts ∧
    (cx - b, cy - a) ∈ pts := by
  obtain ⟨u, v, hmem, hsub⟩ := mem_SDL_RenderDrawCircle cx cy R pts _ h hp
  obtain ⟨h1, h2, h3, h4, h5, h6, h7⟩ := octantPoints_symm cx cy u v a b hmem
  exact ⟨hsub h1, hsub h2, hsub h3, hsub h4, hsub h5, hsub h6, hsub h7⟩

/-- Witness for C7: radius 4 about (7, 9) plots (7 + 2, 9 + 1) and with it its
seven images. -/
theorem SDL_RenderDrawCircle_symmetric_witness :
    ((7 + 2, 9 - 1) : Point) ∈ (SDL_RenderDrawCircle 7 9 4).getD [] ∧
    ((7 - 2, 9 + 1) : Point) ∈ (SDL_RenderDrawCircle 7 9 4).getD [] ∧
    ((7 - 2, 9 - 1) : Point) ∈ (SDL_RenderDrawCircle 7 9 4).getD [] ∧
    ((7 + 1, 9 + 2) : Point) ∈ (SDL_RenderDrawCircle 7 9 4).getD [] ∧
    ((7 + 1, 9 - 2) : Point) ∈ (SDL_RenderDrawCircle 7 9 4).getD [] ∧
    ((7 - 1, 9 + 2) : Point) ∈ (SDL_RenderDrawCircle 7 9 4).getD [] ∧
    ((7 - 1, 9 - 2) : Point) ∈ (SDL_RenderDrawCircle 7 9 4).getD [] :=
  SDL_RenderDrawCircle_symmetric 7 9 4 ((SDL_RenderDrawCircle 7 9 4).getD []) 2 1
    (by decide) (by decide)

/-- C8 (counterexample): radius 1 about the origin plots the centre pixel only,
none of the four axis points at distance 1. -/
theorem SDL_RenderDrawCircle_radius_one :
    SDL_RenderDrawCircle 0 0 1 =
      some [(0, 0), (0, 0), (0, 0), (0, 0), (0, 0), (0, 0), (0, 0), (0, 0)] ∧
    ¬ ∃ pts, SDL_RenderDrawCircle 0 0 1 = some pts ∧
      (((0 + 1, 0) : Point) ∈ pts ∨ ((0 - 1, 0) : Point) ∈ pts ∨
       ((0, 0 + 1) : Point) ∈ pts ∨ ((0, 0 - 1) : Point) ∈ pts) := by
  decide

/-- C8 (amended): for every centre and every radius `R ≥ 1`,
`SDL_RenderDrawCircle` returns and plots the four axis points at distance
`R - 1` from the centre. -/
theorem SDL_RenderDrawCircle_axis_points (cx cy R : Int) (hR : 1 ≤ R) :
    ∃ pts, SDL_RenderDrawCircle cx cy R = some pts ∧
      (cx + (R - 1), cy) ∈ pts ∧ (cx - (R - 1), cy) ∈ pts ∧
      (cx, cy + (R - 1)) ∈ pts ∧ (cx, cy - (R - 1)) ∈ pts := by
  obtain ⟨steps, hsteps, _⟩ := circleSteps_total cx cy R
  obtain ⟨n, hn⟩ : ∃ n, R.toNat = n + 1 := ⟨R.toNat - 1, by omega⟩
  have hloop : circleLoop (n + 1) cx cy (R - 1) 0 0 = some steps := by
    rw [← hn]; exact hsteps
  obtain ⟨t, rfl⟩ := circleLoop_head n cx cy (R - 1) 0 0 steps (by omega) hloop
  refine ⟨octantPoints cx cy (R - 1) 0 ++ t.flatten, by simp [SDL_RenderDrawCircle, hsteps],
    ?_, ?_, ?_, ?_⟩ <;>
    simp [octantPoints]

/-- Witness for C8 (amended): radius 3 about (7, 9). -/
theorem SDL_RenderDrawCircle_axis_points_witness :
    ∃ pts, SDL_RenderDrawCircle 7 9 3 = some pts ∧
      (7 + (3 - 1), 9) ∈ pts ∧ (7 - (3 - 1), 9) ∈ pts ∧
      (7, 9 + (3 - 1)) ∈ pts ∧ (7, 9 - (3 - 1)) ∈ pts :=
  SDL_RenderDrawCircle_axis_points 7 9 3 (by decide)

/-- C9 (evaluation at the failing input): a carbon at the origin drawn with
`main`'s scale 10 and offsets (500, 200, 0) has `R = 17` and screen position
(500, 200); the pixel (502, 202) lies within distance `R - 1` of the centre
and is plotted by none of the outlines `r = 17, ..., 1`. -/
theorem drawAtom_leaves_hole :
    castInt (carbonAtOrigin.radius * 10) = 17 ∧
    screenPos carbonAtOrigin 10 500 200 = (500, 200) ∧
    ((502 : Int) - 500) ^ 2 + ((202 : Int) - 200) ^ 2 ≤ (17 - 1) ^ 2 ∧
    ∃ calls, drawAtom carbonAtOrigin 10 500 200 0 = some calls ∧
      DrawCall.point (502, 202) ∉ calls := by
  decide!

/-- C10: for every centre and radius the loop of `SDL_RenderDrawCircle` runs to
completion; each iteration makes exactly 8 plot calls; the number of plot calls
is at most `8 * R` when `R ≥ 1` and zero when `R ≤ 0`. -/
theorem SDL_RenderDrawCircle_plot_count (cx cy R : Int) :
    ∃ steps, circleSteps cx cy R = some steps ∧
      SDL_RenderDrawCircle cx cy R = some steps.flatten ∧
      (∀ s ∈ steps, s.length = 8) ∧
      steps.flatten.length = 8 * steps.length ∧
      (if R ≤ 0 then steps.flatten = [] else (steps.flatten.length : Int) ≤ 8 * R) := by
  obtain ⟨steps, hsteps, hlen⟩ := circleSteps_total cx cy R
  have h8 := circleLoop_step_length _ _ _ _ _ _ steps hsteps
  have hflat := length_flatten_of_eight steps h8
  refine ⟨steps, hsteps, by simp [SDL_RenderDrawCircle, hsteps], h8, hflat, ?_⟩
  split
  · have h0 : steps.length = 0 := by omega
    rw [List.length_eq_zero] at h0
    rw [h0]; rfl
  · rw [hflat]
    push_cast
    omega

/-- Witness for C10: radius 5 about (7, 9). -/
theorem SDL_RenderDrawCircle_plot_count_witness :
    ∃ steps, circleSteps 7 9 5 = some steps ∧
      SDL_RenderDrawCircle 7 9 5 = some steps.flatten ∧
      (∀ s ∈ steps, s.length = 8) ∧
      steps.flatten.length = 8 * steps.length ∧
      (if (5 : Int) ≤ 0 then steps.flatten = [] else (steps.flatten.length : Int) ≤ 8 * 5) :=
  SDL_RenderDrawCircle_plot_count 7 9 5

/-! ## The plotted points lie inside the requested circle -/

/-- Loop invariant of `SDL_RenderDrawCircle`: `err` tracks the squared
distance of the current offsets, and whenever the loop condition holds the
offsets lie strictly inside the circle of radius `R`. -/
theorem circleLoop_inside (R : Int) (fuel : Nat) (x y : Int) :
    ∀ (x_offset y_offset err : Int) (steps : List (List Point)),
      x_offset ≤ R - 1 → 0 ≤ y_offset →
      err = x_offset ^ 2 + y_offset ^ 2 - (R - 1) ^ 2 + 2 * y_offset + 2 * (R - 1)
        - 2 * x_offset →
      (y_offset ≤ x_offset → x_offset ^ 2 + y_offset ^ 2 < R ^ 2) →
      circleLoop fuel x y x_offset y_offset err = some steps →
      ∀ s ∈ steps, ∃ u v, s = octantPoints x y u v ∧ u ^ 2 + v ^ 2 < R ^ 2 := by
  induction fuel with
  | zero =>
    intro xo yo err steps _ _ _ _ h s hs
    simp only [circleLoop] at h
    split at h
    · cases h
    · cases h
      cases hs
  | succ n ih =>
    intro xo yo err steps hx hy herr hin h s hs
    simp only [circleLoop] at h
    split at h
    · rename_i hge
      have hin0 := hin hge
      split at h
      · rename_i hdec
        cases hrest : circleLoop n x y (xo - 1) (yo + 1)
            (err + (1 + 2 * (yo + 1)) + (1 - 2 * (xo - 1))) with
        | none => simp [hrest] at h
        | some t =>
          simp only [hrest, Option.map_some', Option.some.injEq] at h
          subst h
          rcases List.mem_cons.mp hs with rfl | hs
          · exact ⟨xo, yo, rfl, hin0⟩
          · refine ih (xo - 1) (yo + 1) _ t (by omega) (by omega) ?_ ?_ hrest s hs
            · rw [herr]; ring
            · intro hle
              nlinarith
      · rename_i hdec
        cases hrest : circleLoop n x y xo (yo + 1) (err + (1 + 2 * (yo + 1))) with
        | none => simp [hrest] at h
        | some t =>
          simp only [hrest, Option.map_some', Option.some.injEq] at h
          subst h
          rcases List.mem_cons.mp hs with rfl | hs
          · exact ⟨xo, yo, rfl, hin0⟩
          · refine ih xo (yo + 1) _ t hx (by omega) ?_ ?_ hrest s hs
            · rw [herr]; ring
            · intro _
              have hd : err + (1 + 2 * (yo + 1)) ≤ xo - 1 := by omega
              rw [herr] at hd
              nlinarith
    · cases h
      cases hs

/-- Every point of an iteration is at squared distance `u ^ 2 + v ^ 2` from
the centre. -/
theorem octantPoints_dist (x y u v : Int) (p : Point) (hp : p ∈ octantPoints x y u v) :
    (p.1 - x) ^ 2 + (p.2 - y) ^ 2 = u ^ 2 + v ^ 2 := by
  simp only [octantPoints, List.mem_cons, List.mem_singleton, List.mem_nil_iff, or_false] at hp
  rcases hp with h | h | h | h | h | h | h | h <;> (subst h; simp only; ring)

/-- Every point plotted for a radius `R ≥ 1` is strictly inside the circle of
radius `R`. -/
theorem SDL_RenderDrawCircle_inside (cx cy R : Int) (pts : List Point) (p : Point)
    (hR : 1 ≤ R) (h : SDL_RenderDrawCircle cx cy R = some pts) (hp : p ∈ pts) :
    (p.1 - cx) ^ 2 + (p.2 - cy) ^ 2 < R ^ 2 := by
  unfold SDL_RenderDrawCircle at h
  cases hs : circleSteps cx cy R with
  | none => simp [hs] at h
  | some steps =>
    simp only [hs, Option.map_some', Option.some.injEq] at h
    subst h
    obtain ⟨s, hs1, hs2⟩ := List.mem_flatten.mp hp
    obtain ⟨u, v, rfl, huv⟩ := circleLoop_inside R _ cx cy (R - 1) 0 0 steps (by omega)
      (by omega) (by ring) (fun _ => by nlinarith) hs s hs1
    rw [octantPoints_dist cx cy u v p hs2]
    exact huv

/-- C19: every point plotted by `SDL_RenderDrawCircle` for a radius `R ≥ 1`
lies strictly inside the circle of radius `R` about the centre; for `R = 1`
the only pixel plotted is the centre. -/
theorem SDL_RenderDrawCircle_strictly_inside (cx cy R : Int) (pts : List Point) (p : Point)
    (hR : 1 ≤ R) (h : SDL_RenderDrawCircle cx cy R = some pts) (hp : p ∈ pts) :
    (p.1 - cx) ^ 2 + (p.2 - cy) ^ 2 < R ^ 2 ∧ (R = 1 → p = (cx, cy)) := by
  have hin := SDL_RenderDrawCircle_inside cx cy R pts p hR h hp
  refine ⟨hin, ?_⟩
  intro h1
  subst h1
  have ha : (p.1 - cx) ^ 2 = 0 := by nlinarith [sq_nonneg (p.1 - cx), sq_nonneg (p.2 - cy)]
  have hb : (p.2 - cy) ^ 2 = 0 := by nlinarith [sq_nonneg (p.1 - cx), sq_nonneg (p.2 - cy)]
  have ha0 : p.1 - cx = 0 := pow_eq_zero_iff (by decide) |>.mp ha
  have hb0 : p.2 - cy = 0 := pow_eq_zero_iff (by decide) |>.mp hb
  exact Prod.ext (by simpa using sub_eq_zero.mp ha0) (by simpa using sub_eq_zero.mp hb0)

/-- Witness for C19: radius 1 about (7, 9) plots (7, 9). -/
theorem SDL_RenderDrawCircle_strictly_inside_witness :
    (((7, 9) : Point).1 - 7) ^ 2 + (((7, 9) : Point).2 - 9) ^ 2 < (1 : Int) ^ 2 ∧
    ((1 : Int) = 1 → ((7, 9) : Point) = (7, 9)) :=
  SDL_RenderDrawCircle_strictly_inside 7 9 1 ((SDL_RenderDrawCircle 7 9 1).getD []) (7, 9)
    (by decide) (by decide) (by decide)

/-! ## `drawAtom` and the frame loop -/

/-- The cast `(int)f` rounds toward zero: down for a non-negative value, up
for a negative one. -/
theorem castInt_trunc (q : Rat) : castInt q = if 0 ≤ q then ⌊q⌋ else ⌈q⌉ := by
  split
  · rename_i h
    exact castInt_of_nonneg q h
  · rename_i h
    have hneg : 0 ≤ -q := by linarith [not_le.mp h]
    have h1 := castInt_of_nonneg (-q) hneg
    unfold castInt at h1 ⊢
    rw [Rat.neg_num, Rat.neg_den, Int.neg_tdiv, Int.floor_neg] at h1
    exact neg_injective h1

/-- The outline loop started at `n` draws the radii `n, n - 1, ..., 1` in that
order, all about the same centre. -/
theorem drawAtomOutlines_spec (x y : Int) (n : Nat) :
    ∃ outlines : List (List Point),
      outlines.map some =
        (List.range n).map (fun (i : Nat) => SDL_RenderDrawCircle x y ((n : Int) - (i : Int))) ∧
      drawAtomOutlines x y n = some outlines.flatten := by
  induction n with
  | zero => exact ⟨[], rfl, rfl⟩
  | succ n ih =>
    obtain ⟨outlines, hmap, hdraw⟩ := ih
    obtain ⟨pts, hpts⟩ := SDL_RenderDrawCircle_total x y ((n : Int) + 1)
    refine ⟨pts :: outlines, ?_, ?_⟩
    · have h0 : ((n + 1 : Nat) : Int) - ((0 : Nat) : Int) = (n : Int) + 1 := by
        push_cast; ring
      have hi : ∀ i : Nat, ((n + 1 : Nat) : Int) - ((i + 1 : Nat) : Int) = (n : Int) - (i : Int) := by
        intro i; push_cast; ring
      rw [List.range_succ_eq_map]
      simp only [List.map_cons, List.map_map, Function.comp_def, Nat.succ_eq_add_one, h0, hi,
        hpts, hmap]
    · simp only [drawAtomOutlines, hpts, hdraw, List.flatten_cons]

/-- The frame loop returns for every sequence. -/
theorem drawAtoms_total (scale : Rat) (offsetX offsetY offsetZ : Int) (atoms : List Atom) :
    ∃ calls, drawAtoms scale offsetX offsetY offsetZ atoms = some calls := by
  induction atoms with
  | nil => exact ⟨[], rfl⟩
  | cons a t ih =>
    obtain ⟨more, hmore⟩ := ih
    obtain ⟨pts, _, hcalls⟩ := drawAtom_total a scale offsetX offsetY offsetZ
    exact ⟨DrawCall.setColor (drawAtomColor a.type) :: pts.map DrawCall.point ++ more,
      by simp only [drawAtoms, hcalls, hmore]⟩

/-- The frame loop over a concatenation emits the calls of the first part,
then the calls of the second. -/
theorem drawAtoms_append (scale : Rat) (offsetX offsetY offsetZ : Int) (A B : List Atom)
    (callsA callsB : List DrawCall)
    (hA : drawAtoms scale offsetX offsetY offsetZ A = some callsA)
    (hB : drawAtoms scale offsetX offsetY offsetZ B = some callsB) :
    drawAtoms scale offsetX offsetY offsetZ (A ++ B) = some (callsA ++ callsB) := by
  induction A generalizing callsA with
  | nil =>
    cases hA
    simpa using hB
  | cons a t ih =>
    obtain ⟨pts, _, hcalls⟩ := drawAtom_total a scale offsetX offsetY offsetZ
    obtain ⟨more, hmore⟩ := drawAtoms_total scale offsetX offsetY offsetZ t
    simp only [drawAtoms, hcalls, hmore, Option.some.injEq] at hA
    subst hA
    show drawAtoms scale offsetX offsetY offsetZ (a :: (t ++ B)) = _
    simp only [drawAtoms, hcalls, ih more hmore, List.append_assoc]

/-- C13: `drawAtom` emits one set-colour call with the colour of `atom.type`,
then the points of one outline per radius `R, R - 1, ..., 1` in that order,
`R = trunc(atom.radius * scale)`, every outline centred at
`(trunc(atom.x * scale) + offsetX, trunc(atom.y * scale) + offsetY)`; for
`R ≤ 0` there is no outline; `trunc` rounds toward zero. -/
theorem drawAtom_calls (atom : Atom) (scale : Rat) (offsetX offsetY offsetZ : Int) :
    ∃ outlines : List (List Point),
      outlines.map some =
        (List.range (castInt (atom.radius * scale)).toNat).map
          (fun (i : Nat) => SDL_RenderDrawCircle
            (castInt (atom.x * scale) + offsetX) (castInt (atom.y * scale) + offsetY)
            (castInt (atom.radius * scale) - (i : Int))) ∧
      drawAtom atom scale offsetX offsetY offsetZ =
        some (DrawCall.setColor (drawAtomColor atom.type) ::
          outlines.flatten.map DrawCall.point) ∧
      (castInt (atom.radius * scale) ≤ 0 → outlines = []) ∧
      castInt (atom.x * scale) = (if 0 ≤ atom.x * scale then ⌊atom.x * scale⌋
        else ⌈atom.x * scale⌉) ∧
      castInt (atom.y * scale) = (if 0 ≤ atom.y * scale then ⌊atom.y * scale⌋
        else ⌈atom.y * scale⌉) ∧
      castInt (atom.radius * scale) = (if 0 ≤ atom.radius * scale then ⌊atom.radius * scale⌋
        else ⌈atom.radius * scale⌉) := by
  obtain ⟨outlines, hmap, hdraw⟩ := drawAtomOutlines_spec
    (castInt (atom.x * scale) + offsetX) (castInt (atom.y * scale) + offsetY)
    (castInt (atom.radius * scale)).toNat
  refine ⟨outlines, ?_, ?_, ?_, castInt_trunc _, castInt_trunc _, castInt_trunc _⟩
  · rw [hmap]
    apply List.map_congr_left
    intro i hi
    have hlt : i < (castInt (atom.radius * scale)).toNat := List.mem_range.mp hi
    congr 1
    omega
  · simp only [drawAtom, screenPos, hdraw, Option.map_some']
  · intro hle
    have h0 : (castInt (atom.radius * scale)).toNat = 0 := by omega
    rw [h0] at hmap
    simpa using hmap

/-- Witness for C13: with scale 0 the radius in pixels is 0 and no outline is
drawn. -/
theorem drawAtom_calls_witness :
    ∃ outlines : List (List Point),
      outlines.map some =
        (List.range (castInt (carbonAtOrigin.radius * 0)).toNat).map
          (fun (i : Nat) => SDL_RenderDrawCircle
            (castInt (carbonAtOrigin.x * 0) + 500) (castInt (carbonAtOrigin.y * 0) + 200)
            (castInt (carbonAtOrigin.radius * 0) - (i : Int))) ∧
      drawAtom carbonAtOrigin 0 500 200 0 =
        some (DrawCall.setColor (drawAtomColor carbonAtOrigin.type) ::
          outlines.flatten.map DrawCall.point) ∧
      outlines = [] := by
  obtain ⟨outlines, h1, h2, h3, _⟩ := drawAtom_calls carbonAtOrigin 0 500 200 0
  exact ⟨outlines, h1, h2, h3 (by decide!)⟩

/-- C14: for fixed scale and offsets the frame loop over `A ++ B` emits the
calls for `A` followed by the calls for `B`; the calls for a one-atom sequence
are those of `drawAtom` on that atom. -/
theorem drawAtoms_concat (scale : Rat) (offsetX offsetY offsetZ : Int) (A B : List Atom)
    (a : Atom) :
    (∃ callsA callsB,
      drawAtoms scale offsetX offsetY offsetZ A = some callsA ∧
      drawAtoms scale offsetX offsetY offsetZ B = some callsB ∧
      drawAtoms scale offsetX offsetY offsetZ (A ++ B) = some (callsA ++ callsB)) ∧
    drawAtoms scale offsetX offsetY offsetZ [a] = drawAtom a scale offsetX offsetY offsetZ := by
  obtain ⟨callsA, hA⟩ := drawAtoms_total scale offsetX offsetY offsetZ A
  obtain ⟨callsB, hB⟩ := drawAtoms_total scale offsetX offsetY offsetZ B
  refine ⟨⟨callsA, callsB, hA, hB, drawAtoms_append _ _ _ _ A B callsA callsB hA hB⟩, ?_⟩
  obtain ⟨pts, _, hcalls⟩ := drawAtom_total a scale offsetX offsetY offsetZ
  simp only [drawAtoms, hcalls, List.append_nil]

/-- The function `setVDWRadius` overwrites `radius` with one of eleven
constants, chosen by the name alone. -/
theorem setVDWRadius_cases (atom : Atom) :
    ∃ r : Rat, r ∈ ([1.2, 1.7, 1.55, 1.52, 1.47, 1.8, 1.75, 1.85, 1.98, 1.5] : List Rat) ∧
      ∀ b : Atom, b.name = atom.name → setVDWRadius b = { b with radius := r } := by
  by_cases h1 : atom.name = "H"
  · exact ⟨12 / 10, by norm_num, fun b hb => by
      rw [← hb] at h1; simp only [setVDWRadius, if_pos h1]⟩
  by_cases h2 : atom.name = "C"
  · exact ⟨17 / 10, by norm_num, fun b hb => by
      rw [← hb] at h1 h2; simp only [setVDWRadius, if_neg h1, if_pos h2]⟩
  by_cases h3 : atom.name = "N"
  · exact ⟨155 / 100, by norm_num, fun b hb => by
      rw [← hb] at h1 h2 h3; simp only [setVDWRadius, if_neg h1, if_neg h2, if_pos h3]⟩
  by_cases h4 : atom.name = "O"
  · exact ⟨152 / 100, by norm_num, fun b hb => by
      rw [← hb] at h1 h2 h3 h4
      simp only [setVDWRadius, if_neg h1, if_neg h2, if_neg h3, if_pos h4]⟩
  by_cases h5 : atom.name = "F"
  · exact ⟨147 / 100, by norm_num, fun b hb => by
      rw [← hb] at h1 h2 h3 h4 h5
      simp only [setVDWRadius, if_neg h1, if_neg h2, if_neg h3, if_neg h4, if_pos h5]⟩
  by_cases h6 : atom.name = "P"
  · exact ⟨18 / 10, by norm_num, fun b hb => by
      rw [← hb] at h1 h2 h3 h4 h5 h6
      simp only [setVDWRadius, if_neg h1, if_neg h2, if_neg h3, if_neg h4, if_neg h5, if_pos h6]⟩
  by_cases h7 : atom.name = "S"
  · exact ⟨18 / 10, by norm_num, fun b hb => by
      rw [← hb] at h1 h2 h3 h4 h5 h6 h7
      simp only [setVDWRadius, if_neg h1, if_neg h2, if_neg h3, if_neg h4, if_neg h5, if_neg h6,
        if_pos h7]⟩
  by_cases h8 : atom.name = "Cl"
  · exact ⟨175 / 100, by norm_num, fun b hb => by
      rw [← hb] at h1 h2 h3 h4 h5 h6 h7 h8
      simp only [setVDWRadius, if_neg h1, if_neg h2, if_neg h3, if_neg h4, if_neg h5, if_neg h6,
        if_neg h7, if_pos h8]⟩
  by_cases h9 : atom.name = "Br"
  · exact ⟨185 / 100, by norm_num, fun b hb => by
      rw [← hb] at h1 h2 h3 h4 h5 h6 h7 h8 h9
      simp only [setVDWRadius, if_neg h1, if_neg h2, if_neg h3, if_neg h4, if_neg h5, if_neg h6,
        if_neg h7, if_neg h8, if_pos h9]⟩
  by_cases h10 : atom.name = "I"
  · exact ⟨198 / 100, by norm_num, fun b hb => by
      rw [← hb] at h1 h2 h3 h4 h5 h6 h7 h8 h9 h10
      simp only [setVDWRadius, if_neg h1, if_neg h2, if_neg h3, if_neg h4, if_neg h5, if_neg h6,
        if_neg h7, if_neg h8, if_neg h9, if_pos h10]⟩
  · exact ⟨15 / 10, by norm_num, fun b hb => by
      rw [← hb] at h1 h2 h3 h4 h5 h6 h7 h8 h9 h10
      simp only [setVDWRadius, if_neg h1, if_neg h2, if_neg h3, if_neg h4, if_neg h5, if_neg h6,
        if_neg h7, if_neg h8, if_neg h9, if_neg h10]⟩

/-- The radius `setVDWRadius` stores is one of the eleven constants. -/
theorem setVDWRadius_radius_mem (atom : Atom) :
    (setVDWRadius atom).radius ∈
      ([1.2, 1.7, 1.55, 1.52, 1.47, 1.8, 1.75, 1.85, 1.98, 1.5] : List Rat) := by
  obtain ⟨r, hr, h⟩ := setVDWRadius_cases atom
  rw [h atom rfl]
  exact hr

/-- C15: after the annotation pass every atom has a strictly positive radius,
namely one of the ten tabulated values or 1.5, whatever its name and previous
radius. -/
theorem annotateRadii_positive (atoms : List Atom) :
    (annotateRadii atoms).length = atoms.length ∧
    ∀ a ∈ annotateRadii atoms,
      0 < a.radius ∧ a.radius ≠ 0 ∧
      a.radius ∈ ([1.2, 1.7, 1.55, 1.52, 1.47, 1.8, 1.75, 1.85, 1.98, 1.5] : List Rat) := by
  refine ⟨by simp [annotateRadii], ?_⟩
  intro a ha
  obtain ⟨b, _, rfl⟩ := List.mem_map.mp ha
  have hmem := setVDWRadius_radius_mem b
  have hpos : 0 < (setVDWRadius b).radius := by
    simp only [List.mem_cons, List.mem_singleton, List.mem_nil_iff, or_false] at hmem
    rcases hmem with h | h | h | h | h | h | h | h | h | h <;> (rw [h]; norm_num)
  exact ⟨hpos, ne_of_gt hpos, hmem⟩

/-- Witness for C15: an atom of unknown name and radius 0 leaves the pass with
radius 1.5. -/
theorem annotateRadii_positive_witness :
    (0 : Rat) < (setVDWRadius { carbonAtOrigin with name := "Zn", radius := 0 }).radius :=
  ((annotateRadii_positive [{ carbonAtOrigin with name := "Zn", radius := 0 }]).2
    (setVDWRadius { carbonAtOrigin with name := "Zn", radius := 0 })
    (by simp [annotateRadii])).1

/-- C16 (evaluation at the failing input): on the empty sequence
`calculateScaleAndOffset` reads `atoms[0]`, which is out of range, for every
viewport; the frame loop emits no call. -/
theorem empty_sequence_behaviour (W H D : Int) (scale : Rat) (offsetX offsetY offsetZ : Int) :
    calculateScaleAndOffset [] W H D = .error FitError.indexOutOfRange ∧
    drawAtoms scale offsetX offsetY offsetZ [] = some [] :=
  ⟨rfl, rfl⟩

/-- C17: `setVDWRadius` leaves `name`, `type`, `x`, `y` and `z` unchanged, and
applying it twice is the same as applying it once. -/
theorem setVDWRadius_frame (atom : Atom) :
    (setVDWRadius atom).name = atom.name ∧ (setVDWRadius atom).type = atom.type ∧
    (setVDWRadius atom).x = atom.x ∧ (setVDWRadius atom).y = atom.y ∧
    (setVDWRadius atom).z = atom.z ∧
    setVDWRadius (setVDWRadius atom) = setVDWRadius atom := by
  obtain ⟨r, _, h⟩ := setVDWRadius_cases atom
  have h1 := h atom rfl
  have h2 := h (setVDWRadius atom) (by rw [h1])
  refine ⟨by rw [h1], by rw [h1], by rw [h1], by rw [h1], by rw [h1], ?_⟩
  rw [h2, h1]

/-- C18: the `z` coordinate of the atom and `offsetZ` have no effect on the
calls `drawAtom` emits. -/
theorem drawAtom_ignores_depth (atom : Atom) (z' : Rat) (scale : Rat)
    (offsetX offsetY offsetZ offsetZ' : Int) :
    drawAtom { atom with z := z' } scale offsetX offsetY offsetZ' =
      drawAtom atom scale offsetX offsetY offsetZ :=
  rfl

/-! ## `parsePDB` on a file given by its lines -/

/-- Every file is made of newline-terminated lines followed by the characters
after its last newline. -/
theorem exists_fileOfLines (file : List Char) :
    ∃ (lines : List (List Char)) (last : List Char),
      file = fileOfLines lines last ∧ (∀ l ∈ lines, '\n' ∉ l) ∧ '\n' ∉ last := by
  induction file with
  | nil => exact ⟨[], [], rfl, by simp, by simp⟩
  | cons c t ih =>
    obtain ⟨lines, last, hfile, hlines, hlast⟩ := ih
    by_cases hc : c = '\n'
    · refine ⟨[] :: lines, last, ?_, ?_, hlast⟩
      · simp [fileOfLines, hc, hfile]
      · intro l hl
        rcases List.mem_cons.mp hl with rfl | h
        · simp
        · exact hlines l h
    · cases lines with
      | nil =>
        refine ⟨[], c :: last, ?_, by simp, ?_⟩
        · simp [fileOfLines, hfile]
        · intro h
          rcases List.mem_cons.mp h with h | h
          · exact hc h.symm
          · exact hlast h
      | cons l ls =>
        refine ⟨(c :: l) :: ls, last, ?_, ?_, hlast⟩
        · simp [fileOfLines, hfile]
        · intro m hm
          rcases List.mem_cons.mp hm with rfl | h
          · intro h'
            rcases List.mem_cons.mp h' with h' | h'
            · exact hc h'.symm
            · exact hlines l (List.mem_cons_self _ _) h'
          · exact hlines m (List.mem_cons_of_mem _ h)

/-- A line that fits the buffer is read whole, newline included. -/
theorem fgetsLine_line (l rest : List Char) :
    ∀ room : Nat, '\n' ∉ l → l.length < room →
      fgetsLine room (l ++ '\n' :: rest) = (l ++ ['\n'], rest) := by
  induction l with
  | nil =>
    intro room _ hlen
    obtain ⟨r, rfl⟩ : ∃ r, room = r + 1 := ⟨room - 1, by simp at hlen; omega⟩
    simp [fgetsLine]
  | cons c t ih =>
    intro room hnl hlen
    obtain ⟨r, rfl⟩ : ∃ r, room = r + 1 := ⟨room - 1, by simp at hlen; omega⟩
    have hc : c ≠ '\n' := fun h => hnl (by simp [h])
    have ht : '\n' ∉ t := fun h => hnl (List.mem_cons_of_mem _ h)
    have hlen' : t.length < r := by simp at hlen; omega
    simp [fgetsLine, hc, ih r ht hlen']

/-- Characters after the final newline that fit the buffer are read whole. -/
theorem fgetsLine_last (l : List Char) :
    ∀ room : Nat, '\n' ∉ l → l.length ≤ room → fgetsLine room l = (l, []) := by
  induction l with
  | nil => intro room _ _; cases room <;> rfl
  | cons c t ih =>
    intro room hnl hlen
    obtain ⟨r, rfl⟩ : ∃ r, room = r + 1 := ⟨room - 1, by simp at hlen; omega⟩
    have hc : c ≠ '\n' := fun h => hnl (by simp [h])
    have ht : '\n' ∉ t := fun h => hnl (List.mem_cons_of_mem _ h)
    have hlen' : t.length ≤ r := by simp at hlen; omega
    simp [fgetsLine, hc, ih r ht hlen']

/-- The test `strncmp(line, "ATOM", 4) == 0` looks at the first four
characters of the buffer. -/
theorem cstr_take_four (buf : List Char) :
    (cstr buf).take 4 = ['A', 'T', 'O', 'M'] ↔ buf.take 4 = ['A', 'T', 'O', 'M'] := by
  have hA : 'A' ≠ Char.ofNat 0 := by decide
  have hT : 'T' ≠ Char.ofNat 0 := by decide
  have hO : 'O' ≠ Char.ofNat 0 := by decide
  have hM : 'M' ≠ Char.ofNat 0 := by decide
  rcases buf with _ | ⟨a, _ | ⟨b, _ | ⟨c, _ | ⟨d, t⟩⟩⟩⟩
  · simp [cstr]
  · by_cases ha : a = Char.ofNat 0 <;> simp [cstr, List.takeWhile, ha]
  · by_cases ha : a = Char.ofNat 0 <;> by_cases hb : b = Char.ofNat 0 <;>
      simp [cstr, List.takeWhile, ha, hb]
  · by_cases ha : a = Char.ofNat 0 <;> by_cases hb : b = Char.ofNat 0 <;>
      by_cases hc : c = Char.ofNat 0 <;> simp [cstr, List.takeWhile, ha, hb, hc]
  · constructor
    · intro h
      by_cases ha : a = Char.ofNat 0
      · simp [cstr, List.takeWhile, ha] at h
      by_cases hb : b = Char.ofNat 0
      · simp [cstr, List.takeWhile, ha, hb] at h
      by_cases hc : c = Char.ofNat 0
      · simp [cstr, List.takeWhile, ha, hb, hc] at h
      by_cases hd : d = Char.ofNat 0
      · simp [cstr, List.takeWhile, ha, hb, hc, hd] at h
      simpa [cstr, List.takeWhile, ha, hb, hc, hd] using h
    · intro h
      simp only [List.take_succ_cons, List.take_zero, List.cons.injEq, and_true] at h
      obtain ⟨rfl, rfl, rfl, rfl⟩ := h
      simp [cstr, List.takeWhile, hA, hT, hO, hM]

/-- A line starts with `ATOM` exactly when the line with its newline does. -/
theorem startsWithAtom_newline (l : List Char) :
    startsWithAtom (l ++ ['\n']) = startsWithAtom l := by
  have hM : '\n' ≠ 'M' := by decide
  have hO : '\n' ≠ 'O' := by decide
  have hT : '\n' ≠ 'T' := by decide
  have hA : '\n' ≠ 'A' := by decide
  rcases l with _ | ⟨a, _ | ⟨b, _ | ⟨c, _ | ⟨d, t⟩⟩⟩⟩ <;>
    simp [startsWithAtom, hM, hO, hT, hA]

/-- The array after one `realloc` and store at index `n`. -/
theorem storeAt_eq (atoms : List Slot) (n : Nat) (s : Slot) :
    storeAt atoms n s =
      atoms.take n ++ List.replicate (n - atoms.length) Slot.indeterminate ++ [s] := by
  unfold storeAt
  by_cases h : atoms.length ≤ n
  · have h1 : n + 1 - atoms.length = (n - atoms.length) + 1 := by omega
    rw [List.take_of_length_le (by omega), List.take_of_length_le h, h1, List.replicate_succ',
      ← List.append_assoc]
    have hlen : (atoms ++ List.replicate (n - atoms.length) Slot.indeterminate).length = n := by
      simp; omega
    rw [List.set_append_right _ _ (by omega), hlen]
    simp
  · have h0 : n + 1 - atoms.length = 0 := by omega
    have h0' : n - atoms.length = 0 := by omega
    rw [h0, h0']
    simp only [List.replicate_zero, List.append_nil]
    have hn : n < atoms.length := by omega
    have hsplit : atoms.take (n + 1) = atoms.take n ++ [atoms[n]] := by
      rw [List.take_succ]
      simp [List.getElem?_eq_getElem hn]
    rw [hsplit]
    have hlen : (atoms.take n).length = n := by simp; omega
    rw [List.set_append_right _ _ (by omega), hlen]
    simp

/-- Storing into an array that holds exactly `n` elements appends. -/
theorem storedArray_full (atoms : List Slot) (n : Nat) (slots : List Slot)
    (h : atoms.length = n) : storedArray atoms n slots = atoms ++ slots := by
  unfold storedArray
  split
  · rename_i hs
    rw [List.isEmpty_iff] at hs
    simp [hs]
  · rw [List.take_of_length_le (by omega)]
    have h0 : n - atoms.length = 0 := by omega
    simp [h0]

/-- At end of file the loop returns the current array and counter. -/
theorem parseLoop_eof (uninit : Nat → Atom) (fuel records : Nat) (atoms : List Slot)
    (numAtoms : Int) :
    parseLoop uninit fuel [] records atoms numAtoms = .ok (atoms, numAtoms) := by
  cases fuel <;> simp [parseLoop, fgets]

/-- The loop on a file given by its lines, none longer than 78 characters:
it never runs out of budget, the counter grows by the number of lines that
start with `ATOM`, and the array receives their scans in file order. -/
theorem parseLoop_lines (uninit : Nat → Atom) (last : List Char)
    (hlast : '\n' ∉ last) (hlastLen : last.length ≤ 78) :
    ∀ (lines : List (List Char)) (fuel records : Nat) (atoms : List Slot) (n : Nat),
      (∀ l ∈ lines, '\n' ∉ l ∧ l.length ≤ 78) →
      (fileOfLines lines last).length ≤ fuel →
      parseLoop uninit fuel (fileOfLines lines last) records atoms (n : Int) =
        .ok (storedArray atoms n
              (scanRecords uninit records ((fileChunks lines last).filter startsWithAtom)),
            (n : Int) + ((fileChunks lines last).filter startsWithAtom).length) := by
  intro lines
  induction lines with
  | nil =>
    intro fuel records atoms n _ hfuel
    by_cases hl : last = []
    · subst hl
      simp [fileOfLines, fileChunks, parseLoop_eof, scanRecords, storedArray]
    · obtain ⟨f, rfl⟩ : ∃ f, fuel = f + 1 := by
        refine ⟨fuel - 1, ?_⟩
        have : 0 < last.length := List.length_pos.mpr hl
        simp [fileOfLines] at hfuel
        omega
      have hne : last.isEmpty = false := by simpa using hl
      have hget : fgets 80 last = some (last, []) := by
        simp [fgets, hne, fgetsLine_last last 79 hlast (by omega)]
      by_cases hatom : startsWithAtom last = true
      · have hcond : (cstr last).take 4 = ['A', 'T', 'O', 'M'] :=
          (cstr_take_four last).mpr (by simpa [startsWithAtom] using hatom)
        have hn : ¬ ((n : Int) < 0) := by omega
        simp [fileOfLines, fileChunks, parseLoop, hget, hcond, hn, hne, hatom, parseLoop_eof,
          scanRecords, storedArray, storeAt_eq]
      · have hcond : ¬ (cstr last).take 4 = ['A', 'T', 'O', 'M'] := fun h =>
          hatom (by simpa [startsWithAtom] using (cstr_take_four last).mp h)
        simp [fileOfLines, fileChunks, parseLoop, hget, hcond, hne, hatom, parseLoop_eof,
          scanRecords, storedArray]
  | cons l ls ih =>
    intro fuel records atoms n hlines hfuel
    have hl := hlines l (List.mem_cons_self _ _)
    have hls : ∀ m ∈ ls, '\n' ∉ m ∧ m.length ≤ 78 := fun m hm =>
      hlines m (List.mem_cons_of_mem _ hm)
    have hfile : fileOfLines (l :: ls) last = l ++ '\n' :: fileOfLines ls last := by
      simp [fileOfLines]
    have hchunks : fileChunks (l :: ls) last = (l ++ ['\n']) :: fileChunks ls last := by
      simp [fileChunks]
    rw [hfile] at hfuel ⊢
    rw [hchunks]
    obtain ⟨f, rfl⟩ : ∃ f, fuel = f + 1 := ⟨fuel - 1, by simp at hfuel; omega⟩
    have hfuel' : (fileOfLines ls last).length ≤ f := by simp at hfuel; omega
    have hget : fgets 80 (l ++ '\n' :: fileOfLines ls last) =
        some (l ++ ['\n'], fileOfLines ls last) := by
      simp [fgets, fgetsLine_line l _ 79 hl.1 (by omega)]
    by_cases hatom : startsWithAtom (l ++ ['\n']) = true
    · have hcond : (cstr (l ++ ['\n'])).take 4 = ['A', 'T', 'O', 'M'] :=
        (cstr_take_four _).mpr (by simpa [startsWithAtom] using hatom)
      have hn : ¬ ((n : Int) < 0) := by omega
      have hcast : ((n : Int) + 1) = ((n + 1 : Nat) : Int) := by push_cast; ring
      have hstep := ih f (records + 1)
        (storeAt atoms n (sscanfAtom (cstr (l ++ ['\n'])) (uninit records))) (n + 1) hls hfuel'
      rw [storedArray_full _ _ _ (by rw [storeAt_eq]; simp; omega)] at hstep
      simp only [parseLoop, hget, hcond, if_true, hn, if_false, Int.toNat_ofNat, hcast, hstep,
        List.filter_cons, hatom, scanRecords, List.length_cons]
      simp only [storedArray, List.isEmpty_cons, storeAt_eq, List.append_assoc,
        List.singleton_append, Bool.false_eq_true, if_false]
      congr 2
      push_cast
      ring
    · have hcond : ¬ (cstr (l ++ ['\n'])).take 4 = ['A', 'T', 'O', 'M'] := fun h =>
        hatom (by simpa [startsWithAtom] using (cstr_take_four _).mp h)
      simp only [parseLoop, hget, hcond, if_false, ih f records atoms n hls hfuel',
        List.filter_cons, hatom, Bool.false_eq_true]

/-- The lines that start with `ATOM` are the lines whose buffers do. -/
theorem filter_fileChunks_length (lines : List (List Char)) (last : List Char) :
    ((fileChunks lines last).filter startsWithAtom).length =
      ((fileLines lines last).filter startsWithAtom).length := by
  have hmap : ∀ ls : List (List Char),
      ((ls.map (fun l => l ++ ['\n'])).filter startsWithAtom).length =
        (ls.filter startsWithAtom).length := by
    intro ls
    induction ls with
    | nil => rfl
    | cons l t ih =>
      simp only [List.map_cons, List.filter_cons, startsWithAtom_newline]
      split <;> simp [ih]
  simp only [fileChunks, fileLines, List.filter_append, List.length_append, hmap]

/-- The function `parsePDB` on a file given by its lines, none longer than 78
characters, entered with a counter `n0 ≥ 0`. -/
theorem parsePDB_lines (uninit : Nat → Atom) (lines : List (List Char)) (last : List Char)
    (n0 : Nat) (hlines : ∀ l ∈ lines, '\n' ∉ l ∧ l.length ≤ 78)
    (hlast : '\n' ∉ last ∧ last.length ≤ 78) :
    parsePDB (some (fileOfLines lines last)) (n0 : Int) uninit =
      .ok (storedArray [Slot.indeterminate] n0
            (scanRecords uninit 0 ((fileChunks lines last).filter startsWithAtom)),
          (n0 : Int) + ((fileLines lines last).filter startsWithAtom).length) := by
  rw [← filter_fileChunks_length]
  exact parseLoop_lines uninit last hlast.1 hlast.2 lines _ 0 _ n0 hlines le_rfl

/-- The scans have as many elements as there are records. -/
theorem scanRecords_length (uninit : Nat → Atom) (records : List (List Char)) :
    ∀ k : Nat, (scanRecords uninit k records).length = records.length := by
  induction records with
  | nil => intro k; rfl
  | cons r t ih => intro k; simp [scanRecords, ih]

/-- The array returned from a fresh one-element array holds the scans at the
indices `n0, n0 + 1, ...`. -/
theorem storedArray_drop (n0 : Nat) (slots : List Slot) :
    ((storedArray [Slot.indeterminate] n0 slots).drop n0).take slots.length = slots := by
  unfold storedArray
  split
  · rename_i h
    rw [List.isEmpty_iff] at h
    subst h
    simp
  · have hlen : ([Slot.indeterminate].take n0 ++
        List.replicate (n0 - [Slot.indeterminate].length) Slot.indeterminate).length = n0 := by
      cases n0 <;> simp
    rw [List.drop_append_of_le_length (by omega), List.drop_of_length_le (by omega)]
    simp

/-- C20: entered with a counter `n0 ≥ 0` on a readable file whose lines are at
most 78 characters long, `parsePDB` returns with the counter at `n0 + k`, `k`
the number of lines starting with `ATOM`, and the scans of these lines stand at
the indices `n0, ..., n0 + k - 1` of the array, in file order. -/
theorem parsePDB_accumulates (uninit : Nat → Atom) (lines : List (List Char))
    (last : List Char) (n0 : Int)
    (hlines : ∀ l ∈ lines, '\n' ∉ l ∧ l.length ≤ 78)
    (hlast : '\n' ∉ last ∧ last.length ≤ 78) (hn0 : 0 ≤ n0) :
    ∃ atoms : List Slot,
      parsePDB (some (fileOfLines lines last)) n0 uninit =
        .ok (atoms, n0 + ((fileLines lines last).filter startsWithAtom).length) ∧
      (atoms.drop n0.toNat).take ((fileLines lines last).filter startsWithAtom).length =
        scanRecords uninit 0 ((fileChunks lines last).filter startsWithAtom) := by
  obtain ⟨m, rfl⟩ : ∃ m : Nat, n0 = (m : Int) := ⟨n0.toNat, by omega⟩
  refine ⟨_, parsePDB_lines uninit lines last m hlines hlast, ?_⟩
  have h := storedArray_drop m
    (scanRecords uninit 0 ((fileChunks lines last).filter startsWithAtom))
  rw [scanRecords_length, filter_fileChunks_length] at h
  simpa using h

/-- The amended C11: entered with the counter at 0 on a readable file whose
lines are at most 78 characters long, `parsePDB` returns without error with the
counter at the number of lines starting with `ATOM`, and the array holds the
scan of each such line, in file order, from index 0. -/
theorem parsePDB_counts (uninit : Nat → Atom) (lines : List (List Char)) (last : List Char)
    (hlines : ∀ l ∈ lines, '\n' ∉ l ∧ l.length ≤ 78)
    (hlast : '\n' ∉ last ∧ last.length ≤ 78) :
    ∃ atoms : List Slot,
      parsePDB (some (fileOfLines lines last)) 0 uninit =
        .ok (atoms, (((fileLines lines last).filter startsWithAtom).length : Int)) ∧
      atoms.take ((fileLines lines last).filter startsWithAtom).length =
        scanRecords uninit 0 ((fileChunks lines last).filter startsWithAtom) := by
  refine ⟨_, by simpa using parsePDB_lines uninit lines last 0 hlines hlast, ?_⟩
  have h := storedArray_drop 0
    (scanRecords uninit 0 ((fileChunks lines last).filter startsWithAtom))
  rw [scanRecords_length, filter_fileChunks_length] at h
  simpa using h

/-! ## `sscanf` on a well-formed line -/

/-- The empty input. -/
theorem headAll_nil (p : Char → Bool) : HeadAll p [] := by
  intro c t h; cases h

/-- Input with a first character satisfying `p`. -/
theorem headAll_cons (p : Char → Bool) (c : Char) (t : List Char) (h : p c = true) :
    HeadAll p (c :: t) := by
  intro c' t' he
  cases he
  exact h

/-- Input that opens with a run of characters satisfying `p`. -/
theorem headAll_append (p : Char → Bool) (a b : List Char) (ha : ∀ c ∈ a, p c = true)
    (hb : HeadAll p b) : HeadAll p (a ++ b) := by
  cases a with
  | nil => simpa using hb
  | cons c t => exact headAll_cons p c _ (ha c (List.mem_cons_self _ _))

/-- A weaker property of the first character. -/
theorem headAll_mono (p q : Char → Bool) (s : List Char) (hpq : ∀ c, p c = true → q c = true)
    (h : HeadAll p s) : HeadAll q s :=
  fun c t hs => hpq c (h c t hs)

/-- A run of characters satisfying `p`, followed by input whose first
character does not, is what `takeWhile p` takes and `dropWhile p` drops. -/
theorem takeWhile_dropWhile_run (p : Char → Bool) (a b : List Char)
    (ha : ∀ c ∈ a, p c = true) (hb : HeadAll (fun c => !p c) b) :
    (a ++ b).takeWhile p = a ∧ (a ++ b).dropWhile p = b := by
  induction a with
  | nil =>
    cases b with
    | nil => simp
    | cons c t =>
      have hc : p c = false := by simpa using hb c t rfl
      simp [List.takeWhile, List.dropWhile, hc]
  | cons c t ih =>
    have hc : p c = true := ha c (List.mem_cons_self _ _)
    have ht := ih (fun d hd => ha d (List.mem_cons_of_mem _ hd))
    simp [List.takeWhile, List.dropWhile, hc, ht.1, ht.2]

/-- White space ahead of a token is skipped. -/
theorem skipSpace_run (w rest : List Char) (hw : ∀ c ∈ w, isSpace c = true)
    (hrest : HeadAll (fun c => !isSpace c) rest) : skipSpace (w ++ rest) = rest :=
  (takeWhile_dropWhile_run isSpace w rest hw hrest).2

/-- Input that does not start with white space is left alone. -/
theorem skipSpace_none (rest : List Char) (hrest : HeadAll (fun c => !isSpace c) rest) :
    skipSpace rest = rest := by
  simpa using skipSpace_run [] rest (by simp) hrest

/-- White space is no digit. -/
theorem isSpace_not_digit (c : Char) (h : isSpace c = true) : c.isDigit = false := by
  simp only [isSpace, Bool.or_eq_true, decide_eq_true_eq] at h
  rcases h with ((((h | h) | h) | h) | h) | h <;> (subst h; decide)

/-- A digit is no white space. -/
theorem isDigit_not_space (c : Char) (h : c.isDigit = true) : isSpace c = false := by
  cases hs : isSpace c with
  | false => rfl
  | true => rw [isSpace_not_digit c hs] at h; cases h

/-- The directive `%*d` on an optional minus sign and digits, followed by
input that does not start with a digit. -/
theorem scanInt_token (neg : Bool) (digits rest : List Char) (hne : digits ≠ [])
    (hd : ∀ c ∈ digits, c.isDigit = true) (hrest : HeadAll (fun c => !c.isDigit) rest) :
    scanInt ((if neg then ['-'] else []) ++ (digits ++ rest)) = some rest := by
  obtain ⟨d, ds, rfl⟩ := List.exists_cons_of_ne_nil hne
  have hd0 : d.isDigit = true := hd d (List.mem_cons_self _ _)
  have hrun := takeWhile_dropWhile_run Char.isDigit (d :: ds) rest hd hrest
  have hsign : dropSign (skipSpace ((if neg then ['-'] else []) ++ (d :: ds ++ rest))) =
      d :: ds ++ rest := by
    cases neg with
    | true =>
      have h1 : skipSpace ('-' :: (d :: ds ++ rest)) = '-' :: (d :: ds ++ rest) :=
        skipSpace_none _ (headAll_cons _ _ _ (by decide))
      simp only [if_true, List.singleton_append, h1, dropSign]
      simp
    | false =>
      have h1 : skipSpace (d :: ds ++ rest) = d :: ds ++ rest :=
        skipSpace_none _ (headAll_cons _ _ _ (by simp [isDigit_not_space d hd0]))
      have hplus : d ≠ '+' := by intro h; subst h; simp at hd0
      have hminus : d ≠ '-' := by intro h; subst h; simp at hd0
      simp only [Bool.false_eq_true, if_false, List.nil_append, h1]
      simp [dropSign, hplus, hminus]
  unfold scanInt
  simp only [hsign, hrun.1, hrun.2]
  simp

/-- The directives `%4s` and `%*s` on a word that fits the field width,
followed by white space or the end of the input. -/
theorem scanWord_token (width : Option Nat) (word rest : List Char) (hne : word ≠ [])
    (hw : ∀ c ∈ word, isSpace c = false) (hwidth : ∀ n, width = some n → word.length ≤ n)
    (hrest : HeadAll isSpace rest) :
    scanWord width (word ++ rest) = some (word, rest) := by
  obtain ⟨d, ds, rfl⟩ := List.exists_cons_of_ne_nil hne
  have hd0 : isSpace d = false := hw d (List.mem_cons_self _ _)
  have h1 : skipSpace (d :: ds ++ rest) = d :: ds ++ rest :=
    skipSpace_none _ (headAll_cons _ _ _ (by simp [hd0]))
  have hrun := takeWhile_dropWhile_run (fun c => !isSpace c) (d :: ds) rest
    (fun c hc => by simp [hw c hc]) (headAll_mono _ _ _ (fun c hc => by simpa using hc) hrest)
  unfold scanWord
  simp only [h1, hrun.1]
  cases width with
  | none => simp
  | some n =>
    have hle := hwidth n rfl
    simp only [List.take_of_length_le hle]
    simp

/-- Reading further digits shifts the value read so far. -/
theorem foldl_digits (b : List Char) :
    ∀ init : Nat,
      b.foldl (fun n c => 10 * n + (c.toNat - 48)) init =
        init * 10 ^ b.length + b.foldl (fun n c => 10 * n + (c.toNat - 48)) 0 := by
  induction b with
  | nil => intro init; simp
  | cons c t ih =>
    intro init
    simp only [List.foldl_cons, List.length_cons]
    rw [ih (10 * init + (c.toNat - 48)), ih (10 * 0 + (c.toNat - 48))]
    ring

/-- Appending digits shifts the value written so far. -/
theorem digitsValue_append (a b : List Char) :
    digitsValue (a ++ b) = digitsValue a * 10 ^ b.length + digitsValue b := by
  unfold digitsValue
  rw [List.foldl_append, foldl_digits]

/-- Digits, a point or white space do not open an infinity, a NaN or a
hexadecimal constant. -/
theorem isSpecialFloat_digit (c1 : Char) (t : List Char) (h1 : c1.isDigit = true)
    (ht : HeadAll (fun c => c.isDigit || c = '.' || isSpace c) t) :
    isSpecialFloat (c1 :: t) = false := by
  have hi : c1 ≠ 'i' := by intro h; subst h; simp at h1
  have hI : c1 ≠ 'I' := by intro h; subst h; simp at h1
  have hn : c1 ≠ 'n' := by intro h; subst h; simp at h1
  have hN : c1 ≠ 'N' := by intro h; subst h; simp at h1
  cases t with
  | nil => simp [isSpecialFloat]
  | cons c2 t2 =>
    have h2 := ht c2 t2 rfl
    have hx : c2 ≠ 'x' := by intro h; subst h; simp [isSpace] at h2
    have hX : c2 ≠ 'X' := by intro h; subst h; simp [isSpace] at h2
    cases t2 <;> simp [isSpecialFloat, hi, hI, hn, hN, hx, hX]

/-- White space or the end of the input is no exponent. -/
theorem scanExponent_space (m : Rat) (rest : List Char) (hrest : HeadAll isSpace rest) :
    scanExponent m rest = FloatScan.value m rest := by
  cases rest with
  | nil => rfl
  | cons c s5 =>
    have hc := hrest c s5 rfl
    have he : c ≠ 'e' := by intro h; subst h; simp [isSpace] at hc
    have hE : c ≠ 'E' := by intro h; subst h; simp [isSpace] at hc
    simp [scanExponent, he, hE]

/-- The directive `%f` on an optional minus sign, digits and a tail `tail`
that is either the end of the item or a point with its digits. -/
theorem scanFloat_digits (neg : Bool) (w0 : Char) (ws frac rest : List Char) (point : Bool)
    (hwhole : ∀ c ∈ w0 :: ws, c.isDigit = true) (hfrac : ∀ c ∈ frac, c.isDigit = true)
    (hpoint : point = false → frac = []) (hrest : HeadAll isSpace rest) :
    scanFloat ((if neg then ['-'] else []) ++
      (w0 :: ws ++ ((if point then '.' :: frac else []) ++ rest))) =
      FloatScan.value
        ((if neg then -1 else 1) * ((digitsValue (w0 :: ws ++ frac) : Rat) / 10 ^ frac.length))
        rest := by
  have hw0 : w0.isDigit = true := hwhole w0 (List.mem_cons_self _ _)
  have hplus : w0 ≠ '+' := by intro h; subst h; simp at hw0
  have hminus : w0 ≠ '-' := by intro h; subst h; simp at hw0
  have hrestDigit : HeadAll (fun c => !c.isDigit) rest :=
    headAll_mono _ _ rest (fun c hc => by simp [isSpace_not_digit c hc]) hrest
  have htail : HeadAll (fun c => !c.isDigit) ((if point then '.' :: frac else []) ++ rest) := by
    cases point with
    | true => exact headAll_cons _ _ _ (by decide)
    | false => simpa using hrestDigit
  have hwholeRun := takeWhile_dropWhile_run Char.isDigit (w0 :: ws)
    ((if point then '.' :: frac else []) ++ rest) hwhole htail
  have hfracRun := takeWhile_dropWhile_run Char.isDigit frac rest hfrac hrestDigit
  have hspecial : isSpecialFloat
      (w0 :: ws ++ ((if point then '.' :: frac else []) ++ rest)) = false := by
    apply isSpecialFloat_digit w0 _ hw0
    apply headAll_append _ ws _ (fun c hc => by
      simp [hwhole c (List.mem_cons_of_mem _ hc)])
    cases point with
    | true => exact headAll_cons _ _ _ (by decide)
    | false => simpa using headAll_mono _ _ rest (fun c hc => by simp [hc]) hrest
  have hskip : skipSpace ((if neg then ['-'] else []) ++
      (w0 :: ws ++ ((if point then '.' :: frac else []) ++ rest))) =
      (if neg then ['-'] else []) ++
      (w0 :: ws ++ ((if point then '.' :: frac else []) ++ rest)) := by
    apply skipSpace_none
    cases neg with
    | true => exact headAll_cons _ _ _ (by decide)
    | false => exact headAll_cons _ _ _ (by simp [isDigit_not_space w0 hw0])
  have hhead : (((if neg then ['-'] else []) ++
      (w0 :: ws ++ ((if point then '.' :: frac else []) ++ rest))).head? = some '-') ↔
      neg = true := by
    cases neg with
    | true => simp
    | false => simpa using hminus
  have hsign : dropSign ((if neg then ['-'] else []) ++
      (w0 :: ws ++ ((if point then '.' :: frac else []) ++ rest))) =
      w0 :: ws ++ ((if point then '.' :: frac else []) ++ rest) := by
    cases neg with
    | true => simp [dropSign]
    | false => simp [dropSign, hplus, hminus]
  unfold scanFloat
  simp only [hskip, hsign, hspecial, Bool.false_eq_true, if_false, hwholeRun.1, hwholeRun.2, hhead]
  cases point with
  | true =>
    simp only [if_true, List.cons_append, List.head?_cons, List.tail_cons, hfracRun.1, hfracRun.2,
      List.isEmpty_cons, Bool.false_and, Bool.false_eq_true, if_false]
    rw [scanExponent_space _ _ hrest]
    congr 1
    cases neg <;> simp
  | false =>
    have hf := hpoint rfl
    subst hf
    have hnopoint : ¬ (rest.head? = some '.') := by
      cases rest with
      | nil => simp
      | cons c t =>
        have hc := hrest c t rfl
        intro h
        simp only [List.head?_cons, Option.some.injEq] at h
        subst h
        simp [isSpace] at hc
    simp only [Bool.false_eq_true, if_false, List.nil_append, hnopoint, List.isEmpty_cons,
      Bool.false_and, List.append_nil]
    rw [scanExponent_space _ _ hrest]
    congr 1
    cases neg <;> simp

/-- The directive `%f` on a decimal number followed by white space or the end
of the input. -/
theorem scanFloat_decimal (d : DecimalText) (rest : List Char) (hwf : d.wellFormed = true)
    (hrest : HeadAll isSpace rest) :
    scanFloat (d.text ++ rest) = FloatScan.value d.value rest := by
  obtain ⟨neg, whole, frac⟩ := d
  simp only [DecimalText.wellFormed, Bool.and_eq_true, Bool.not_eq_true', List.isEmpty_eq_false,
    List.all_eq_true] at hwf
  obtain ⟨⟨hne, hwhole⟩, hfrac⟩ := hwf
  obtain ⟨w0, ws, rfl⟩ := List.exists_cons_of_ne_nil hne
  have key := scanFloat_digits neg w0 ws frac rest (!frac.isEmpty) hwhole hfrac
    (by intro h; simpa using h) hrest
  have htext : ({ neg := neg, whole := w0 :: ws, frac := frac } : DecimalText).text ++ rest =
      (if neg then ['-'] else []) ++
        (w0 :: ws ++ ((if (!frac.isEmpty) = true then '.' :: frac else []) ++ rest)) := by
    cases frac <;> simp [DecimalText.text]
  rw [htext, key]
  congr 1
  simp only [DecimalText.value]
  rw [digitsValue_append]
  have h10 : (10 : Rat) ^ frac.length ≠ 0 := by positivity
  push_cast
  field_simp

/-- A separator is non-empty white space. -/
theorem isSeparator_spec (w : List Char) (h : isSeparator w = true) :
    w ≠ [] ∧ (∀ c ∈ w, isSpace c = true) ∧ '\n' ∉ w := by
  simp only [isSeparator, Bool.and_eq_true, Bool.not_eq_true', List.isEmpty_eq_false,
    List.all_eq_true, bne_iff_ne, ne_eq] at h
  exact ⟨h.1, fun c hc => (h.2 c hc).1, fun hn => (h.2 _ hn).2 rfl⟩

/-- Input that opens with a separator opens with white space. -/
theorem headAll_separator (w rest : List Char) (h : isSeparator w = true) :
    HeadAll isSpace (w ++ rest) := by
  obtain ⟨hne, hsp, _⟩ := isSeparator_spec w h
  obtain ⟨c, t, rfl⟩ := List.exists_cons_of_ne_nil hne
  exact headAll_cons _ _ _ (hsp c (List.mem_cons_self _ _))

/-- A visible character is neither white space nor NUL. -/
theorem isVisible_spec (c : Char) (h : isVisible c = true) :
    isSpace c = false ∧ c ≠ Char.ofNat 0 := by
  simpa [isVisible] using h

/-- Input that opens with a word does not open with white space. -/
theorem headAll_word (word rest : List Char) (hne : word ≠ [])
    (hw : ∀ c ∈ word, isSpace c = false) : HeadAll (fun c => !isSpace c) (word ++ rest) := by
  obtain ⟨c, t, rfl⟩ := List.exists_cons_of_ne_nil hne
  exact headAll_cons _ _ _ (by simp [hw c (List.mem_cons_self _ _)])

/-- A decimal number does not open with white space. -/
theorem headAll_decimal (d : DecimalText) (rest : List Char) (hwf : d.wellFormed = true) :
    HeadAll (fun c => !isSpace c) (d.text ++ rest) := by
  obtain ⟨neg, whole, frac⟩ := d
  simp only [DecimalText.wellFormed, Bool.and_eq_true, Bool.not_eq_true', List.isEmpty_eq_false,
    List.all_eq_true] at hwf
  obtain ⟨⟨hne, hwhole⟩, _⟩ := hwf
  obtain ⟨w0, ws, rfl⟩ := List.exists_cons_of_ne_nil hne
  have hw0 := isDigit_not_space w0 (hwhole w0 (List.mem_cons_self _ _))
  cases neg with
  | true => exact headAll_cons _ _ _ (by decide)
  | false => exact headAll_cons _ _ _ (by simp [hw0])

/-- A separator and a word, as `%4s` and `%*s` meet them. -/
theorem scanWord_after_separator (width : Option Nat) (sep word rest : List Char)
    (hsep : isSeparator sep = true) (hne : word ≠ [])
    (hw : ∀ c ∈ word, isSpace c = false) (hwidth : ∀ n, width = some n → word.length ≤ n)
    (hrest : HeadAll isSpace rest) :
    scanWord width (skipSpace (sep ++ (word ++ rest))) = some (word, rest) := by
  rw [skipSpace_run sep _ (isSeparator_spec sep hsep).2.1 (headAll_word word rest hne hw)]
  exact scanWord_token width word rest hne hw hwidth hrest

/-- A separator and a decimal number, as `%f` meets them. -/
theorem scanFloat_after_separator (sep : List Char) (d : DecimalText) (rest : List Char)
    (hsep : isSeparator sep = true) (hwf : d.wellFormed = true)
    (hrest : HeadAll isSpace rest) :
    scanFloat (skipSpace (sep ++ (d.text ++ rest))) = FloatScan.value d.value rest := by
  rw [skipSpace_run sep _ (isSeparator_spec sep hsep).2.1 (headAll_decimal d rest hwf)]
  exact scanFloat_decimal d rest hwf hrest

/-- The three coordinates of a well-formed line are stored. -/
theorem scanCoords_text (sep6 sep7 sep8 : List Char) (x y z : DecimalText)
    (trail : List Char) (atom : Atom)
    (h6 : isSeparator sep6 = true) (h7 : isSeparator sep7 = true)
    (h8 : isSeparator sep8 = true) (hx : x.wellFormed = true) (hy : y.wellFormed = true)
    (hz : z.wellFormed = true) (htrail : HeadAll isSpace trail) :
    scanCoords (sep6 ++ (x.text ++ (sep7 ++ (y.text ++ (sep8 ++ (z.text ++ trail)))))) atom =
      Slot.atom { atom with x := x.value, y := y.value, z := z.value } := by
  unfold scanCoords
  rw [scanFloat_after_separator sep6 x _ h6 hx (headAll_separator sep7 _ h7)]
  simp only
  rw [scanFloat_after_separator sep7 y _ h7 hy (headAll_separator sep8 _ h8)]
  simp only
  rw [scanFloat_after_separator sep8 z _ h8 hz htrail]

/-- The call `sscanf` of `parsePDB` on a well-formed line, followed by white
space or the end of the buffer, stores the name, the type character and the
three coordinates of the line. -/
theorem sscanfAtom_atomLine (L : AtomLine) (trail : List Char) (atom : Atom)
    (hwf : L.wellFormed = true) (htrail : HeadAll isSpace trail) :
    sscanfAtom (L.text ++ trail) atom = Slot.atom (L.atom atom) := by
  simp only [AtomLine.wellFormed, Bool.and_eq_true, Bool.not_eq_true', List.isEmpty_eq_false,
    List.all_eq_true, decide_eq_true_eq] at hwf
  obtain ⟨⟨⟨⟨⟨⟨⟨⟨⟨⟨⟨⟨⟨⟨⟨⟨⟨⟨⟨⟨h1, h2⟩, h3⟩, h4⟩, h5⟩, h6⟩, h7⟩, h8⟩, hserNe⟩, hser⟩, hnameNe⟩,
    hnameLen⟩, hname⟩, htype⟩, htok1Ne⟩, htok1⟩, htok2Ne⟩, htok2⟩, hx⟩, hy⟩, hz⟩ := hwf
  have hnameSp : ∀ c ∈ L.name, isSpace c = false := fun c hc => (isVisible_spec c (hname c hc)).1
  have htok1Sp : ∀ c ∈ L.tok1, isSpace c = false := fun c hc => (isVisible_spec c (htok1 c hc)).1
  have htok2Sp : ∀ c ∈ L.tok2, isSpace c = false := fun c hc => (isVisible_spec c (htok2 c hc)).1
  have htypeSp : isSpace L.type = false := (isVisible_spec _ htype).1
  -- the serial number
  have hserHead : HeadAll (fun c => !isSpace c)
      ((if L.serialNeg then ['-'] else []) ++ (L.serial ++ (L.sep2 ++ (L.name ++ (L.sep3 ++
        (L.type :: (L.sep4 ++ (L.tok1 ++ (L.sep5 ++ (L.tok2 ++ (L.sep6 ++
          (L.coordsText ++ trail))))))))))))  := by
    cases L.serialNeg with
    | true => exact headAll_cons _ _ _ (by decide)
    | false =>
      simp only [Bool.false_eq_true, if_false, List.nil_append]
      exact headAll_word _ _ hserNe (fun c hc => isDigit_not_space c (hser c hc))
  have hint := scanInt_token L.serialNeg L.serial
    (L.sep2 ++ (L.name ++ (L.sep3 ++ (L.type :: (L.sep4 ++ (L.tok1 ++ (L.sep5 ++ (L.tok2 ++
      (L.sep6 ++ (L.coordsText ++ trail))))))))))
    hserNe hser
    (headAll_mono _ _ _ (fun c hc => by simp [isSpace_not_digit c hc])
      (headAll_separator L.sep2 _ h2))
  have hnameScan := scanWord_after_separator (some 4) L.sep2 L.name
    (L.sep3 ++ (L.type :: (L.sep4 ++ (L.tok1 ++ (L.sep5 ++ (L.tok2 ++
      (L.sep6 ++ (L.coordsText ++ trail))))))))
    h2 hnameNe hnameSp (fun n hn => by cases hn; exact hnameLen) (headAll_separator L.sep3 _ h3)
  have htypeSkip : skipSpace (L.sep3 ++ (L.type :: (L.sep4 ++ (L.tok1 ++ (L.sep5 ++ (L.tok2 ++
      (L.sep6 ++ (L.coordsText ++ trail)))))))) =
      L.type :: (L.sep4 ++ (L.tok1 ++ (L.sep5 ++ (L.tok2 ++
        (L.sep6 ++ (L.coordsText ++ trail)))))) :=
    skipSpace_run L.sep3 _ (isSeparator_spec _ h3).2.1
      (headAll_cons _ _ _ (by simp [htypeSp]))
  have htok1Scan := scanWord_after_separator none L.sep4 L.tok1
    (L.sep5 ++ (L.tok2 ++ (L.sep6 ++ (L.coordsText ++ trail))))
    h4 htok1Ne htok1Sp (fun n hn => by cases hn) (headAll_separator L.sep5 _ h5)
  have htok2Scan := scanWord_after_separator none L.sep5 L.tok2
    (L.sep6 ++ (L.coordsText ++ trail))
    h5 htok2Ne htok2Sp (fun n hn => by cases hn) (headAll_separator L.sep6 _ h6)
  have hcoords := scanCoords_text L.sep6 L.sep7 L.sep8 L.x L.y L.z trail
    { atom with name := String.mk L.name, type := L.type } h6 h7 h8 hx hy hz htrail
  have hcoordsText : L.sep6 ++ (L.coordsText ++ trail) =
      L.sep6 ++ (L.x.text ++ (L.sep7 ++ (L.y.text ++ (L.sep8 ++ (L.z.text ++ trail))))) := by
    simp [AtomLine.coordsText, List.append_assoc]
  have htext : L.text ++ trail = 'A' :: 'T' :: 'O' :: 'M' :: (L.sep1 ++
      ((if L.serialNeg then ['-'] else []) ++ (L.serial ++ (L.sep2 ++ (L.name ++ (L.sep3 ++
        (L.type :: (L.sep4 ++ (L.tok1 ++ (L.sep5 ++ (L.tok2 ++ (L.sep6 ++
          (L.coordsText ++ trail))))))))))))) := by
    simp [AtomLine.text, List.append_assoc]
  have hlit : ∀ s : List Char,
      matchLiteral ['A', 'T', 'O', 'M'] ('A' :: 'T' :: 'O' :: 'M' :: s) = some s := by
    intro s; simp [matchLiteral]
  unfold sscanfAtom
  rw [htext, hlit]
  simp only
  rw [skipSpace_run L.sep1 _ (isSeparator_spec _ h1).2.1 hserHead, hint]
  simp only
  rw [hnameScan]
  simp only
  rw [htypeSkip]
  simp only
  rw [htok1Scan]
  simp only
  rw [htok2Scan]
  simp only
  rw [hcoordsText, hcoords]
  rfl

/-- The characters of a decimal number. -/
theorem decimalText_chars (d : DecimalText) (hwf : d.wellFormed = true) :
    ∀ c ∈ d.text, c = '-' ∨ c = '.' ∨ c.isDigit = true := by
  obtain ⟨neg, whole, frac⟩ := d
  simp only [DecimalText.wellFormed, Bool.and_eq_true, Bool.not_eq_true', List.isEmpty_eq_false,
    List.all_eq_true] at hwf
  obtain ⟨⟨_, hwhole⟩, hfrac⟩ := hwf
  intro c hc
  simp only [DecimalText.text, List.mem_append] at hc
  rcases hc with hc | hc | hc
  · cases neg with
    | true => left; simpa using hc
    | false => simp at hc
  · exact Or.inr (Or.inr (hwhole c hc))
  · cases frac with
    | nil => simp at hc
    | cons f fs =>
      simp only [List.isEmpty_cons, Bool.false_eq_true, if_false, List.mem_cons] at hc
      rcases hc with rfl | hc
      · exact Or.inr (Or.inl rfl)
      · exact Or.inr (Or.inr (hfrac c (List.mem_cons.mpr hc)))

/-- A well-formed line holds neither a newline nor a NUL. -/
theorem atomLine_chars (L : AtomLine) (hwf : L.wellFormed = true) :
    ∀ c ∈ L.text, c ≠ '\n' ∧ c ≠ Char.ofNat 0 := by
  simp only [AtomLine.wellFormed, Bool.and_eq_true, Bool.not_eq_true', List.isEmpty_eq_false,
    List.all_eq_true, decide_eq_true_eq] at hwf
  obtain ⟨⟨⟨⟨⟨⟨⟨⟨⟨⟨⟨⟨⟨⟨⟨⟨⟨⟨⟨⟨h1, h2⟩, h3⟩, h4⟩, h5⟩, h6⟩, h7⟩, h8⟩, _⟩, hser⟩, _⟩,
    _⟩, hname⟩, htype⟩, _⟩, htok1⟩, _⟩, htok2⟩, hx⟩, hy⟩, hz⟩ := hwf
  have hsep : ∀ w : List Char, isSeparator w = true → ∀ c ∈ w, c ≠ '\n' ∧ c ≠ Char.ofNat 0 := by
    intro w hw c hc
    obtain ⟨_, hsp, hnl⟩ := isSeparator_spec w hw
    refine ⟨fun h => hnl (h ▸ hc), fun h => ?_⟩
    have := hsp c hc
    rw [h] at this
    exact absurd this (by decide)
  have hdig : ∀ c : Char, c.isDigit = true → c ≠ '\n' ∧ c ≠ Char.ofNat 0 := by
    intro c hc
    constructor <;> (intro h; rw [h] at hc; exact absurd hc (by decide))
  have hvis : ∀ c : Char, isVisible c = true → c ≠ '\n' ∧ c ≠ Char.ofNat 0 := by
    intro c hc
    obtain ⟨hs, h0⟩ := isVisible_spec c hc
    exact ⟨fun h => by rw [h] at hs; exact absurd hs (by decide), h0⟩
  have hdec : ∀ d : DecimalText, d.wellFormed = true →
      ∀ c ∈ d.text, c ≠ '\n' ∧ c ≠ Char.ofNat 0 := by
    intro d hd c hc
    rcases decimalText_chars d hd c hc with rfl | rfl | h
    · exact ⟨by decide, by decide⟩
    · exact ⟨by decide, by decide⟩
    · exact hdig c h
  intro c hc
  simp only [AtomLine.text, AtomLine.coordsText, List.mem_append, List.mem_cons,
    List.mem_singleton, List.mem_nil_iff, or_false] at hc
  rcases hc with hc | hc | hc | hc | hc | hc | hc | hc | hc | hc | hc | hc | hc | hc | hc | hc |
    hc | hc
  · rcases hc with rfl | rfl | rfl | rfl <;> exact ⟨by decide, by decide⟩
  · exact hsep _ h1 c hc
  · by_cases hneg : L.serialNeg = true
    · simp only [hneg, if_true, List.mem_singleton] at hc
      subst hc
      exact ⟨by decide, by decide⟩
    · simp [hneg] at hc
  · exact hdig c (hser c hc)
  · exact hsep _ h2 c hc
  · exact hvis c (hname c hc)
  · exact hsep _ h3 c hc
  · subst hc; exact hvis _ htype
  · exact hsep _ h4 c hc
  · exact hvis c (htok1 c hc)
  · exact hsep _ h5 c hc
  · exact hvis c (htok2 c hc)
  · exact hsep _ h6 c hc
  · exact hdec _ hx c hc
  · exact hsep _ h7 c hc
  · exact hdec _ hy c hc
  · exact hsep _ h8 c hc
  · exact hdec _ hz c hc

/-- A well-formed line starts with `ATOM`. -/
theorem atomLine_startsWithAtom (L : AtomLine) : startsWithAtom L.text = true := by
  simp [startsWithAtom, AtomLine.text]

/-- A buffer without NUL is its own C string. -/
theorem cstr_eq_self (buf : List Char) (h : ∀ c ∈ buf, c ≠ Char.ofNat 0) : cstr buf = buf := by
  unfold cstr
  rw [List.takeWhile_eq_self_iff]
  intro c hc
  simpa using h c hc

/-- The scans of a concatenation of record lists. -/
theorem scanRecords_append (uninit : Nat → Atom) (A B : List (List Char)) :
    ∀ k : Nat, scanRecords uninit k (A ++ B) =
      scanRecords uninit k A ++ scanRecords uninit (k + A.length) B := by
  induction A with
  | nil => intro k; simp [scanRecords]
  | cons a t ih =>
    intro k
    have hk : k + 1 + t.length = k + (t.length + 1) := by omega
    show scanRecords uninit k (a :: (t ++ B)) = _
    simp only [scanRecords, ih (k + 1), List.length_cons, hk, List.cons_append]

/-- Filtering the buffers of newline-terminated lines. -/
theorem filter_newline_length (ls : List (List Char)) :
    ((ls.map (fun l => l ++ ['\n'])).filter startsWithAtom).length =
      (ls.filter startsWithAtom).length := by
  induction ls with
  | nil => rfl
  | cons l t ih =>
    simp only [List.map_cons, List.filter_cons, startsWithAtom_newline]
    split <;> simp [ih]

/-- The array returned from a fresh one-element array, entered with the
counter at `n0`, when at least one record is stored. -/
theorem storedArray_fresh (n0 : Nat) (A B : List Slot) (s : Slot) :
    storedArray [Slot.indeterminate] n0 (A ++ s :: B) =
      List.replicate n0 Slot.indeterminate ++ (A ++ s :: B) := by
  have hne : (A ++ s :: B).isEmpty = false := by cases A <;> rfl
  cases n0 with
  | zero => simp [storedArray, hne]
  | succ m =>
    simp only [storedArray, hne, Bool.false_eq_true, if_false, List.take_succ_cons,
      List.take_nil, List.length_singleton, Nat.add_sub_cancel, List.singleton_append]
    rw [← List.replicate_succ]

/-- The amended C12: for a line of the stated format (`ATOM`, an integer
serial number, a name of 1 to 4 visible characters, a type character, two
further tokens, three decimal numbers, separated by white space) that is at
most 78 characters long and stands anywhere in a file whose lines are at most
78 characters long, the array element `parsePDB` stores for it holds exactly
that name, that type character and those three coordinates. -/
theorem parsePDB_atom_line (uninit : Nat → Atom) (L : AtomLine) (pre post : List (List Char))
    (last : List Char) (n0 : Nat) (hwf : L.wellFormed = true) (hlen : L.text.length ≤ 78)
    (hpre : ∀ l ∈ pre, '\n' ∉ l ∧ l.length ≤ 78)
    (hpost : ∀ l ∈ post, '\n' ∉ l ∧ l.length ≤ 78)
    (hlast : '\n' ∉ last ∧ last.length ≤ 78) :
    ∃ (atoms : List Slot) (n : Int),
      parsePDB (some (fileOfLines (pre ++ L.text :: post) last)) (n0 : Int) uninit =
        .ok (atoms, n) ∧
      atoms[n0 + (pre.filter startsWithAtom).length]? =
        some (Slot.atom (L.atom (uninit (pre.filter startsWithAtom).length))) := by
  have hchars := atomLine_chars L hwf
  have hlines : ∀ l ∈ pre ++ L.text :: post, '\n' ∉ l ∧ l.length ≤ 78 := by
    intro l hl
    rcases List.mem_append.mp hl with h | h
    · exact hpre l h
    · rcases List.mem_cons.mp h with rfl | h
      · exact ⟨fun hn => (hchars _ hn).1 rfl, hlen⟩
      · exact hpost l h
  have hspec := parsePDB_lines uninit (pre ++ L.text :: post) last n0 hlines hlast
  refine ⟨_, _, hspec, ?_⟩
  have hchunks : (fileChunks (pre ++ L.text :: post) last).filter startsWithAtom =
      (pre.map (fun l => l ++ ['\n'])).filter startsWithAtom ++
        (L.text ++ ['\n']) ::
          ((post.map (fun l => l ++ ['\n']) ++
            (if last.isEmpty then [] else [last])).filter startsWithAtom) := by
    simp [fileChunks, List.filter_append, List.filter_cons, startsWithAtom_newline,
      atomLine_startsWithAtom]
  have hcstr : cstr (L.text ++ ['\n']) = L.text ++ ['\n'] := by
    apply cstr_eq_self
    intro c hc
    rcases List.mem_append.mp hc with h | h
    · exact (hchars c h).2
    · simp only [List.mem_singleton] at h
      subst h
      decide
  have hscan : sscanfAtom (L.text ++ ['\n']) (uninit (pre.filter startsWithAtom).length) =
      Slot.atom (L.atom (uninit (pre.filter startsWithAtom).length)) :=
    sscanfAtom_atomLine L ['\n'] _ hwf (headAll_cons _ _ _ (by decide))
  have hlenA : (scanRecords uninit 0
      ((pre.map (fun l => l ++ ['\n'])).filter startsWithAtom)).length =
      (pre.filter startsWithAtom).length := by
    rw [scanRecords_length, filter_newline_length]
  rw [hchunks, scanRecords_append]
  simp only [scanRecords, hcstr, Nat.zero_add, filter_newline_length, hscan]
  rw [storedArray_fresh, List.getElem?_append_right (by simp),
    List.getElem?_append_right (by simp [hlenA])]
  simp [hlenA]

/-- Witness for C20: a file of two atom records and an unterminated last
line, entered with the counter at 3. -/
theorem parsePDB_accumulates_witness :
    ∃ atoms : List Slot,
      parsePDB (some (fileOfLines [sampleLineC.text, sampleLineO.text] ['E', 'N', 'D'])) 3
          (fun _ => carbonAtOrigin) =
        .ok (atoms, 3 + ((fileLines [sampleLineC.text, sampleLineO.text]
          ['E', 'N', 'D']).filter startsWithAtom).length) ∧
      (atoms.drop (3 : Int).toNat).take ((fileLines [sampleLineC.text, sampleLineO.text]
          ['E', 'N', 'D']).filter startsWithAtom).length =
        scanRecords (fun _ => carbonAtOrigin) 0
          ((fileChunks [sampleLineC.text, sampleLineO.text] ['E', 'N', 'D']).filter
            startsWithAtom) :=
  parsePDB_accumulates (fun _ => carbonAtOrigin) [sampleLineC.text, sampleLineO.text]
    ['E', 'N', 'D'] 3 (by decide) (by decide) (by decide)

/-- Witness for the amended C11: the same file, entered with the counter at 0. -/
theorem parsePDB_counts_witness :
    ∃ atoms : List Slot,
      parsePDB (some (fileOfLines [sampleLineC.text, sampleLineO.text] ['E', 'N', 'D'])) 0
          (fun _ => carbonAtOrigin) =
        .ok (atoms, (((fileLines [sampleLineC.text, sampleLineO.text]
          ['E', 'N', 'D']).filter startsWithAtom).length : Int)) ∧
      atoms.take ((fileLines [sampleLineC.text, sampleLineO.text]
          ['E', 'N', 'D']).filter startsWithAtom).length =
        scanRecords (fun _ => carbonAtOrigin) 0
          ((fileChunks [sampleLineC.text, sampleLineO.text] ['E', 'N', 'D']).filter
            startsWithAtom) :=
  parsePDB_counts (fun _ => carbonAtOrigin) [sampleLineC.text, sampleLineO.text]
    ['E', 'N', 'D'] (by decide) (by decide)

/-- C11 (counterexample): a file whose only line is 79 filler characters
followed by `ATOM 1 C C A 1 0 0 0` has no line starting with `ATOM`, yet
`parsePDB`, entered with the counter at 0, stores one atom and returns the
counter 1; and on the one-line file `ATOM 1 C C A 1 0 0 0` the counter
returned is 8 when it was 7 on entry and 1 when it was 0. -/
theorem parsePDB_count_counterexample :
    (fileLines [sampleSplitLine] []).filter startsWithAtom = [] ∧
    parsePDB (some (fileOfLines [sampleSplitLine] [])) 0 (fun _ => carbonAtOrigin) =
      .ok ([Slot.atom carbonAtOrigin], 1) ∧
    ((fileLines [sampleLineC.text] []).filter startsWithAtom).length = 1 ∧
    parsePDB (some (fileOfLines [sampleLineC.text] [])) 7 (fun _ => carbonAtOrigin) =
      .ok (List.replicate 7 Slot.indeterminate ++ [Slot.atom carbonAtOrigin], 8) ∧
    parsePDB (some (fileOfLines [sampleLineC.text] [])) 0 (fun _ => carbonAtOrigin) =
      .ok ([Slot.atom carbonAtOrigin], 1) := by
  decide!

/-- C12 (counterexample): the line `ATOM 1 C C A 1 0 0`, 71 spaces, `5` has
the stated format and last coordinate 5; the buffer of 80 bytes holds its first
79 characters only, and the atom `parsePDB` stores keeps in `z` the previous
content of the local `atom`, here 0. -/
theorem parsePDB_long_line_counterexample :
    sampleLongLine.wellFormed = true ∧
    sampleLongLine.text.length = 90 ∧
    (sampleLongLine.atom carbonAtOrigin).z = 5 ∧
    parsePDB (some (fileOfLines [sampleLongLine.text] [])) 0 (fun _ => carbonAtOrigin) =
      .ok ([Slot.atom carbonAtOrigin], 1) ∧
    Slot.atom carbonAtOrigin ≠ Slot.atom (sampleLongLine.atom carbonAtOrigin) := by
  decide!

/-- Witness for the amended C12: the line `ATOM 2 O O A 1 10 0 0` after a
header line and the line `ATOM 1 C C A 1 0 0 0`, the counter at 0 on entry. -/
theorem parsePDB_atom_line_witness :
    sampleLineO.text = "ATOM 2 O O A 1 10 0 0".toList ∧
    sampleLineC.text = "ATOM 1 C C A 1 0 0 0".toList ∧
    ∃ (atoms : List Slot) (n : Int),
      parsePDB (some (fileOfLines
          (["HEADER".toList, sampleLineC.text] ++ sampleLineO.text :: []) ['E', 'N', 'D']))
          ((0 : Nat) : Int) (fun _ => carbonAtOrigin) = .ok (atoms, n) ∧
      atoms[0 + (["HEADER".toList, sampleLineC.text].filter startsWithAtom).length]? =
        some (Slot.atom (sampleLineO.atom ((fun _ => carbonAtOrigin)
          (["HEADER".toList, sampleLineC.text].filter startsWithAtom).length))) :=
  ⟨by decide, by decide,
    parsePDB_atom_line (fun _ => carbonAtOrigin) sampleLineO ["HEADER".toList, sampleLineC.text]
      [] ['E', 'N', 'D'] 0 (by decide) (by decide) (by decide) (by decide) (by decide)⟩

end PDBViewer
